import Mathlib

/-!
Verification of the sigsum-go core against its specification.

The development shallowly embeds the Go sources:

* `pkg/merkle` (inclusion / consistency / batch-inclusion verification),
  translated function by function from the Go file; `uint64` values become
  `Nat` (all Go arithmetic used here — shifts, xor, popcount, bit length,
  division by two — agrees with `Nat` arithmetic on values below `2 ^ 64`,
  and no operation in these functions can overflow),
* `pkg/proof` (the SigsumProof bundle: parsing, emission, verification),
* the wire types and the line-oriented ASCII codec.

SHA-256 and Ed25519 are kept abstract: every function that hashes or
verifies signatures takes the hash / verifier as an explicit argument,
since the claims under study never depend on the internals of the
primitives, only on how the code composes them.

Bytes are modelled as `Nat` (well-formed data keeps them below 256) and
byte strings as `List Nat`; a `Hash` is a 32-byte string.
-/

/-- A byte string; well-formed values have all entries below 256. -/
abbrev Bytes := List Nat

/-- A 32-byte hash value (`crypto.Hash`). -/
abbrev Hash := Bytes

/-- `isBytes n bs`: `bs` is a byte string of length `n` with every entry below 256. -/
def isBytes (n : Nat) (bs : Bytes) : Prop := bs.length = n ∧ ∀ b ∈ bs, b < 256

instance (n : Nat) (bs : Bytes) : Decidable (isBytes n bs) := by
  unfold isBytes; infer_instance

/-- Big-endian encoding of a 64-bit value (`binary.BigEndian.PutUint64`). -/
def be64 (n : Nat) : Bytes :=
  [n / 2 ^ 56 % 256, n / 2 ^ 48 % 256, n / 2 ^ 40 % 256, n / 2 ^ 32 % 256,
   n / 2 ^ 24 % 256, n / 2 ^ 16 % 256, n / 2 ^ 8 % 256, n % 256]

/-- Bit length, as in Go `bits.Len64` (for values below `2 ^ 64`). -/
def bitLen (n : Nat) : Nat :=
  if h : n = 0 then 0 else bitLen (n / 2) + 1
termination_by n
decreasing_by exact Nat.div_lt_self (Nat.pos_of_ne_zero h) (by decide)

/-- Population count, as in Go `bits.OnesCount64`. -/
def onesCount (n : Nat) : Nat :=
  if h : n = 0 then 0 else n % 2 + onesCount (n / 2)
termination_by n
decreasing_by exact Nat.div_lt_self (Nat.pos_of_ne_zero h) (by decide)

/-- Trailing zero count, as in Go `bits.TrailingZeros64` (which returns 64 on input 0). -/
def trailingZeros (n : Nat) : Nat :=
  if h : n = 0 then 64
  else if n % 2 = 1 then 0 else trailingZeros (n / 2) + 1
termination_by n
decreasing_by exact Nat.div_lt_self (Nat.pos_of_ne_zero h) (by decide)

theorem bitLen_zero : bitLen 0 = 0 := by rw [bitLen]; rfl

theorem bitLen_of_ne_zero {n : Nat} (h : n ≠ 0) : bitLen n = bitLen (n / 2) + 1 := by
  rw [bitLen]; simp [h]

theorem onesCount_zero : onesCount 0 = 0 := by rw [onesCount]; rfl

theorem onesCount_of_ne_zero {n : Nat} (h : n ≠ 0) : onesCount n = n % 2 + onesCount (n / 2) := by
  rw [onesCount]; simp [h]

/-- `onesCount` satisfies the halving recursion on every input, zero included. -/
theorem onesCount_rec (n : Nat) : onesCount n = n % 2 + onesCount (n / 2) := by
  by_cases h : n = 0
  · subst h; simp [onesCount_zero]
  · exact onesCount_of_ne_zero h

/- Errors returned by the Merkle verification functions.  Each constructor
stands for one `fmt.Errorf` site in the Go source; `internalPanic` stands
for the `panic` calls (and for Go's implicit slice-bounds panics). -/
inductive MerkleErr where
  | indexOutOfRange
  | badPathLength
  | rootMismatch
  | equalSizeNonEmptyPath
  | equalSizeRootsDiffer
  | emptyOldNonEmptyPath
  | emptyOldBadRoot
  | oldRootMismatch
  | newRootMismatch
  | emptyRange
  | endExceedsSize
  | inconsistentPaths
  | wrongStartPathLength
  | wrongEndPathLength
  | inconsistentLeafRange
  | startEndTreesInconsistent
  | internalPanic
deriving DecidableEq, Repr

/-- `pathLength` from the Go merkle package:
`k + popcount(index >> k)` with `k = bits.Len64(index ^ (size-1))`. -/
def pathLength (index size : Nat) : Nat :=
  let k := bitLen (index ^^^ (size - 1))
  k + onesCount (index >>> k)

/-- `inclusionPathLength` from the Go merkle package (textually identical to
`pathLength` in the source). -/
def inclusionPathLength (index size : Nat) : Nat :=
  let k := bitLen (index ^^^ (size - 1))
  k + onesCount (index >>> k)

theorem pathLength_eq_inclusionPathLength (index size : Nat) :
    pathLength index size = inclusionPathLength index size := rfl

/-- `HashEmptyTree` from the Go merkle package: the hash of the empty input.
Modelled from the spec: the merkle hash helpers are not among the provided
source files; §4.1 defines `hash_empty_tree() = H("")`. -/
def HashEmptyTree (hashBytes : Bytes → Hash) : Hash := hashBytes []

/-- The loop of Go `VerifyInclusion`, started at `r = leaf`, `fn = index`,
`sn = size-1`: left sibling hashed in when `fn` is odd, right sibling when
`fn` is even and `fn < sn`, nothing consumed otherwise; `fn` and `sn` are
right-shifted each round until `sn = 0`.  Returns the folded hash and the
unconsumed path; `none` models the slice-bounds panic of `path[0]` on an
exhausted path. -/
def inclusionLoop (H : Hash → Hash → Hash) (fn sn : Nat) (r : Hash) (path : List Hash) :
    Option (Hash × List Hash) :=
  if h : sn = 0 then some (r, path)
  else if fn % 2 = 1 then
    match path with
    | [] => none
    | p :: rest => inclusionLoop H (fn / 2) (sn / 2) (H p r) rest
  else if fn < sn then
    match path with
    | [] => none
    | p :: rest => inclusionLoop H (fn / 2) (sn / 2) (H r p) rest
  else
    inclusionLoop H (fn / 2) (sn / 2) r path
termination_by sn
decreasing_by
  all_goals exact Nat.div_lt_self (Nat.pos_of_ne_zero h) (by decide)

/-- Go `merkle.VerifyInclusion` (the interior-node hash `H` is the
`HashInteriorNode` primitive, kept abstract).  The source performs the same
path-length comparison twice, once against `inclusionPathLength` and once
against `pathLength`; both are kept. -/
def VerifyInclusion (H : Hash → Hash → Hash) (leaf : Hash) (index size : Nat)
    (root : Hash) (path : List Hash) : Except MerkleErr Unit :=
  if index ≥ size then .error .indexOutOfRange
  else if path.length ≠ inclusionPathLength index size then .error .badPathLength
  else if path.length ≠ pathLength index size then .error .badPathLength
  else
    match inclusionLoop H index (size - 1) leaf path with
    | none => .error .internalPanic
    | some (r, rest) =>
      if rest.length > 0 then .error .internalPanic
      else if r ≠ root then .error .rootMismatch
      else .ok ()

/-- The loop of Go `VerifyConsistency`, tracking the reconstructed old root
`fr` and new root `sr`.  Same traversal pattern as `inclusionLoop`. -/
def consistencyLoop (H : Hash → Hash → Hash) (fn sn : Nat) (fr sr : Hash)
    (path : List Hash) : Option (Hash × Hash × List Hash) :=
  if h : sn = 0 then some (fr, sr, path)
  else if fn % 2 = 1 then
    match path with
    | [] => none
    | p :: rest => consistencyLoop H (fn / 2) (sn / 2) (H p fr) (H p sr) rest
  else if fn < sn then
    match path with
    | [] => none
    | p :: rest => consistencyLoop H (fn / 2) (sn / 2) fr (H sr p) rest
  else
    consistencyLoop H (fn / 2) (sn / 2) fr sr path
termination_by sn
decreasing_by
  all_goals exact Nat.div_lt_self (Nat.pos_of_ne_zero h) (by decide)

/-- The starting state of the consistency traversal: `fr = oldRoot` when
`fn = 0`, otherwise the first path element is consumed. -/
def consistencyStart (oldRoot : Hash) (fn : Nat) (path : List Hash) :
    Option (Hash × List Hash) :=
  if fn = 0 then some (oldRoot, path)
  else
    match path with
    | [] => none
    | p :: rest => some (p, rest)

/-- Go `merkle.VerifyConsistency`.  `hashBytes` is the abstract byte hash
(used only through `HashEmptyTree`), `H` the interior-node hash. -/
def VerifyConsistency (hashBytes : Bytes → Hash) (H : Hash → Hash → Hash)
    (oldSize newSize : Nat) (oldRoot newRoot : Hash) (path : List Hash) :
    Except MerkleErr Unit :=
  if oldSize = newSize then
    if path.length > 0 then .error .equalSizeNonEmptyPath
    else if oldRoot ≠ newRoot then .error .equalSizeRootsDiffer
    else .ok ()
  else if oldSize = 0 then
    if path.length > 0 then .error .emptyOldNonEmptyPath
    else if oldRoot ≠ HashEmptyTree hashBytes then .error .emptyOldBadRoot
    else .ok ()
  else
    let trimBits := trailingZeros oldSize
    let fn := (oldSize - 1) >>> trimBits
    let sn := (newSize - 1) >>> trimBits
    let wantLength := pathLength fn (sn + 1) + (if fn > 0 then 1 else 0)
    if path.length ≠ wantLength then .error .badPathLength
    else
      match consistencyStart oldRoot fn path with
      | none => .error .internalPanic
      | some (fr, path') =>
        match consistencyLoop H fn sn fr fr path' with
        | none => .error .internalPanic
        | some (fr', sr', rest) =>
          if rest.length > 0 then .error .internalPanic
          else if fr' ≠ oldRoot then .error .oldRootMismatch
          else if sr' ≠ newRoot then .error .newRootMismatch
          else .ok ()

/-- Go `merkle.pathEqual`. -/
def pathEqual (a b : List Hash) : Bool :=
  if a.length ≠ b.length then false
  else (a.zip b).all fun p => p.1 = p.2

/-- The loop of Go `extendRange`: while the compact range is non-empty and
`s` is even, merge the top of the range with `h` and halve `s`; finally
push `h`.  The Go loop starts with `s = i + 1`. -/
def extendRangeLoop (mk : Hash → Hash → Hash) (cr : List Hash) (s : Nat) (h : Hash) :
    List Hash :=
  if hcr : cr = [] then cr ++ [h]
  else if s % 2 = 1 then cr ++ [h]
  else extendRangeLoop mk cr.dropLast (s / 2) (mk (cr.getLast hcr) h)
termination_by cr.length
decreasing_by
  have hne : cr.length ≠ 0 := by simpa using hcr
  simp only [List.length_dropLast]
  omega

/-- Go `merkle.extendRange`. -/
def extendRange (mk : Hash → Hash → Hash) (cr : List Hash) (i : Nat) (h : Hash) :
    List Hash :=
  extendRangeLoop mk cr (i + 1) h

/-- Go `merkle.makeLeftRange`: the compact range of a leaf interval ending
at a power-of-two boundary, rightmost tree first.  Iterates over the
leaves from the last one backwards, as the Go loop does via
`leaves[len(leaves)-1-i]`. -/
def makeLeftRange (H : Hash → Hash → Hash) (leaves : List Hash) : List Hash :=
  match leaves.reverse with
  | [] => []
  | x :: rest =>
    (rest.foldl (fun st h => (extendRange (fun l r => H r l) st.1 st.2 h, st.2 + 1))
      ([x], 1)).1

/-- Go `merkle.makeRightRange`: the compact range of a leaf interval
starting at a power-of-two boundary. -/
def makeRightRange (H : Hash → Hash → Hash) (leaves : List Hash) : List Hash :=
  match leaves with
  | [] => []
  | x :: rest =>
    (rest.foldl (fun st h => (extendRange H st.1 st.2 h, st.2 + 1)) ([x], 1)).1

/-- The first loop of Go `VerifyInclusionBatch` (`k` rounds over the start
path).  One start-path element is consumed per round; when `fn` is even the
top of the left compact range must equal it.  Returns the folded hash, the
shifted `fn`, the remaining start path and the remaining left range;
`none` models a slice-bounds panic. -/
def batchLeftLoop (H : Hash → Hash → Hash) :
    Nat → Nat → Hash → List Hash → List Hash →
    Option (Except MerkleErr (Hash × Nat × List Hash × List Hash))
  | 0, fn, fr, startPath, leftRange => some (.ok (fr, fn, startPath, leftRange))
  | k + 1, fn, fr, startPath, leftRange =>
    match startPath with
    | [] => none
    | p :: sp =>
      if fn % 2 = 1 then
        batchLeftLoop H k (fn / 2) (H p fr) sp leftRange
      else
        if hlr : leftRange = [] then none
        else
          let s := leftRange.getLast hlr
          if s ≠ p then some (.error .inconsistentLeafRange)
          else batchLeftLoop H k (fn / 2) (H fr s) sp leftRange.dropLast

/-- The second loop of Go `VerifyInclusionBatch` (`k` rounds over the end
path).  When `en` is odd the top of the right compact range must equal the
next end-path element; when `en` is even and `en < sn` the next end-path
element is a right sibling; otherwise nothing is consumed. -/
def batchRightLoop (H : Hash → Hash → Hash) :
    Nat → Nat → Nat → Hash → List Hash → List Hash →
    Option (Except MerkleErr (Hash × Nat × Nat × List Hash × List Hash))
  | 0, en, sn, er, endPath, rightRange => some (.ok (er, en, sn, endPath, rightRange))
  | k + 1, en, sn, er, endPath, rightRange =>
    if en % 2 = 1 then
      match endPath with
      | [] => none
      | p :: ep =>
        if hrr : rightRange = [] then none
        else
          let s := rightRange.getLast hrr
          if s ≠ p then some (.error .inconsistentLeafRange)
          else batchRightLoop H k (en / 2) (sn / 2) (H s er) ep rightRange.dropLast
    else if en < sn then
      match endPath with
      | [] => none
      | p :: ep => batchRightLoop H k (en / 2) (sn / 2) (H er p) ep rightRange
    else
      batchRightLoop H k (en / 2) (sn / 2) er endPath rightRange

/-- Go `merkle.VerifyInclusionBatch`.  The mask `en & -(1 << k)` of the
source clears the `k` low bits of `en`, i.e. equals `(en >>> k) <<< k`.
The end of the range `en := fn + uint64(len(leaves)) - 1` is computed in
`uint64`, so it is reduced mod `2 ^ 64` here (the subtraction cannot
underflow because the leaf sequence is non-empty). -/
def VerifyInclusionBatch (H : Hash → Hash → Hash) (leaves : List Hash)
    (fn size : Nat) (root : Hash) (startPath endPath : List Hash) :
    Except MerkleErr Unit :=
  match hl : leaves with
  | [] => .error .emptyRange
  | l0 :: ltail =>
    let en := (fn + leaves.length - 1) % 2 ^ 64
    if en ≥ size then .error .endExceedsSize
    else if leaves.length = 1 then
      if ¬ pathEqual startPath endPath then .error .inconsistentPaths
      else VerifyInclusion H l0 fn size root startPath
    else if startPath.length ≠ inclusionPathLength fn size then .error .wrongStartPathLength
    else if endPath.length ≠ inclusionPathLength en size then .error .wrongEndPathLength
    else
      let k := bitLen (fn ^^^ en) - 1
      let split := (en >>> k) <<< k
      let leftRange := makeLeftRange H ((leaves.take (split - fn)).drop 1)
      let rightRange := makeRightRange H ((leaves.take (leaves.length - 1)).drop (split - fn))
      match batchLeftLoop H k fn l0 startPath leftRange with
      | none => .error .internalPanic
      | some (.error e) => .error e
      | some (.ok (fr, fn', startPath', leftRange')) =>
        match batchRightLoop H k en (size - 1) ((l0 :: ltail).getLast (by simp)) endPath rightRange with
        | none => .error .internalPanic
        | some (.error e) => .error e
        | some (.ok (er, en', sn', endPath', rightRange')) =>
          if fn' % 2 = 1 ∨ en' % 2 = 0 ∨ fn' + 1 ≠ en' then .error .internalPanic
          else if leftRange'.length > 0 ∨ rightRange'.length > 0 then .error .internalPanic
          else
            match startPath', endPath' with
            | [], _ => .error .internalPanic
            | _, [] => .error .internalPanic
            | sp0 :: spRest, ep0 :: epRest =>
              if sp0 ≠ er ∨ ep0 ≠ fr then .error .startEndTreesInconsistent
              else if ¬ pathEqual spRest epRest then .error .inconsistentPaths
              else VerifyInclusion H (H fr er) (fn' / 2) (sn' / 2 + 1) root spRest

/-! ### Path consumption of the Merkle traversals -/

theorem xor_div_two (a b : Nat) : (a ^^^ b) / 2 = a / 2 ^^^ b / 2 := by
  apply Nat.eq_of_testBit_eq
  intro i
  simp [Nat.testBit_div_two, Nat.testBit_xor]

theorem shiftRight_succ_div (n k : Nat) : n >>> (k + 1) = (n / 2) >>> k := by
  simp [Nat.shiftRight_eq_div_pow, Nat.div_div_eq_div_mul, Nat.pow_succ, Nat.mul_comm]

/-- The number of path elements the inclusion / consistency traversal
consumes when started at `(fn, sn)`: one per round when `fn` is odd or
`fn < sn`, none otherwise. -/
def consumeCount (fn sn : Nat) : Nat :=
  if h : sn = 0 then 0
  else if fn % 2 = 1 then 1 + consumeCount (fn / 2) (sn / 2)
  else if fn < sn then 1 + consumeCount (fn / 2) (sn / 2)
  else consumeCount (fn / 2) (sn / 2)
termination_by sn
decreasing_by
  all_goals exact Nat.div_lt_self (Nat.pos_of_ne_zero h) (by decide)

/-- The traversal consumes exactly `k + popcount(fn >> k)` path elements,
`k` the bit length of `fn ^^^ sn` — the quantity `pathLength fn (sn+1)`
computes. -/
theorem consumeCount_eq (sn : Nat) : ∀ fn, fn ≤ sn →
    consumeCount fn sn = bitLen (fn ^^^ sn) + onesCount (fn >>> bitLen (fn ^^^ sn)) := by
  induction sn using Nat.strong_induction_on with
  | _ sn ih =>
    intro fn hle
    by_cases hsn : sn = 0
    · subst hsn
      have hfn : fn = 0 := Nat.le_zero.mp hle
      subst hfn
      rw [consumeCount]
      simp [bitLen_zero, onesCount_zero]
    · have hhalf : sn / 2 < sn := Nat.div_lt_self (Nat.pos_of_ne_zero hsn) (by decide)
      by_cases heq : fn = sn
      · subst heq
        have hrec := ih (fn / 2) hhalf (fn / 2) le_rfl
        have hx0 : fn ^^^ fn = 0 := Nat.xor_self fn
        rw [consumeCount]
        simp only [hsn, dite_false, lt_irrefl, if_false, hx0, bitLen_zero,
          Nat.shiftRight_zero]
        rw [hrec]
        simp only [Nat.xor_self, bitLen_zero, Nat.shiftRight_zero, Nat.zero_add]
        by_cases hodd : fn % 2 = 1
        · simp only [hodd, if_true]
          rw [onesCount_rec fn, hodd]
        · simp only [hodd, if_false]
          have : fn % 2 = 0 := Nat.mod_two_eq_zero_or_one fn |>.resolve_right hodd
          rw [onesCount_rec fn, this, Nat.zero_add]
      · have hlt : fn < sn := lt_of_le_of_ne hle heq
        have hle2 : fn / 2 ≤ sn / 2 := Nat.div_le_div_right hle
        have hrec := ih (sn / 2) hhalf (fn / 2) hle2
        have hx : fn ^^^ sn ≠ 0 := fun h => heq (Nat.xor_eq_zero.mp h)
        have hk : bitLen (fn ^^^ sn) = bitLen (fn / 2 ^^^ sn / 2) + 1 := by
          rw [bitLen_of_ne_zero hx, xor_div_two]
        rw [consumeCount]
        by_cases hodd : fn % 2 = 1
        · simp only [hsn, dite_false, hodd, if_true]
          rw [hrec, hk, shiftRight_succ_div]
          omega
        · simp only [hsn, dite_false, hodd, if_false, hlt, if_true]
          rw [hrec, hk, shiftRight_succ_div]
          omega

theorem inclusionPathLength_eq_consumeCount {index size : Nat} (h : index < size) :
    inclusionPathLength index size = consumeCount index (size - 1) := by
  have hle : index ≤ size - 1 := Nat.le_pred_of_lt h
  rw [consumeCount_eq (size - 1) index hle]
  rfl

/-- When the path is at least as long as the consumption count, the
inclusion traversal never panics and leaves exactly the surplus path. -/
theorem inclusionLoop_run (H : Hash → Hash → Hash) (sn : Nat) :
    ∀ fn r path, consumeCount fn sn ≤ path.length →
      ∃ r', inclusionLoop H fn sn r path = some (r', path.drop (consumeCount fn sn)) := by
  induction sn using Nat.strong_induction_on with
  | _ sn ih =>
    intro fn r path hlen
    by_cases hsn : sn = 0
    · subst hsn
      rw [consumeCount]
      rw [inclusionLoop.eq_def]
      simp
    · have hhalf : sn / 2 < sn := Nat.div_lt_self (Nat.pos_of_ne_zero hsn) (by decide)
      rw [consumeCount] at hlen ⊢
      rw [inclusionLoop.eq_def]
      by_cases hodd : fn % 2 = 1
      · simp only [hsn, dite_false, hodd, if_true] at hlen ⊢
        cases path with
        | nil => simp at hlen
        | cons p rest =>
          have hlen' : consumeCount (fn / 2) (sn / 2) ≤ rest.length := by
            simp at hlen; omega
          obtain ⟨r', hr'⟩ := ih (sn / 2) hhalf (fn / 2) (H p r) rest hlen'
          refine ⟨r', ?_⟩
          rw [Nat.add_comm 1 _, List.drop_succ_cons]
          exact hr'
      · by_cases hlt : fn < sn
        · simp only [hsn, dite_false, hodd, if_false, hlt, if_true] at hlen ⊢
          cases path with
          | nil => simp at hlen
          | cons p rest =>
            have hlen' : consumeCount (fn / 2) (sn / 2) ≤ rest.length := by
              simp at hlen; omega
            obtain ⟨r', hr'⟩ := ih (sn / 2) hhalf (fn / 2) (H r p) rest hlen'
            refine ⟨r', ?_⟩
            rw [Nat.add_comm 1 _, List.drop_succ_cons]
            exact hr'
        · simp only [hsn, dite_false, hodd, if_false, hlt] at hlen ⊢
          exact ih (sn / 2) hhalf (fn / 2) r path hlen

/-- Same for the consistency traversal. -/
theorem consistencyLoop_run (H : Hash → Hash → Hash) (sn : Nat) :
    ∀ fn fr sr path, consumeCount fn sn ≤ path.length →
      ∃ fr' sr', consistencyLoop H fn sn fr sr path =
        some (fr', sr', path.drop (consumeCount fn sn)) := by
  induction sn using Nat.strong_induction_on with
  | _ sn ih =>
    intro fn fr sr path hlen
    by_cases hsn : sn = 0
    · subst hsn
      rw [consumeCount]
      rw [consistencyLoop.eq_def]
      simp
    · have hhalf : sn / 2 < sn := Nat.div_lt_self (Nat.pos_of_ne_zero hsn) (by decide)
      rw [consumeCount] at hlen ⊢
      rw [consistencyLoop.eq_def]
      by_cases hodd : fn % 2 = 1
      · simp only [hsn, dite_false, hodd, if_true] at hlen ⊢
        cases path with
        | nil => simp at hlen
        | cons p rest =>
          have hlen' : consumeCount (fn / 2) (sn / 2) ≤ rest.length := by
            simp at hlen; omega
          obtain ⟨fr', sr', hr'⟩ := ih (sn / 2) hhalf (fn / 2) (H p fr) (H p sr) rest hlen'
          refine ⟨fr', sr', ?_⟩
          rw [Nat.add_comm 1 _, List.drop_succ_cons]
          exact hr'
      · by_cases hlt : fn < sn
        · simp only [hsn, dite_false, hodd, if_false, hlt, if_true] at hlen ⊢
          cases path with
          | nil => simp at hlen
          | cons p rest =>
            have hlen' : consumeCount (fn / 2) (sn / 2) ≤ rest.length := by
              simp at hlen; omega
            obtain ⟨fr', sr', hr'⟩ := ih (sn / 2) hhalf (fn / 2) fr (H sr p) rest hlen'
            refine ⟨fr', sr', ?_⟩
            rw [Nat.add_comm 1 _, List.drop_succ_cons]
            exact hr'
        · simp only [hsn, dite_false, hodd, if_false, hlt] at hlen ⊢
          exact ih (sn / 2) hhalf (fn / 2) fr sr path hlen

/-! ### Claims about `VerifyInclusion` and `VerifyConsistency` -/

/-- `consistency_path_length` as the spec defines it:
`t = trailing_zeros(old)`, `f = (old-1)>>t`, `s = (new-1)>>t`,
length `inclusion_path_length(f, s+1) + (1 if f>0 else 0)`. -/
def consistencyPathLength (old new : Nat) : Nat :=
  let t := trailingZeros old
  let f := (old - 1) >>> t
  let s := (new - 1) >>> t
  inclusionPathLength f (s + 1) + (if 0 < f then 1 else 0)

/-- C2: `VerifyInclusion` returns a malformed-proof error exactly when
`index ≥ size` or the path length differs from
`k + popcount(index >> k)`, `k = bit_length(index ^ (size-1))`;
otherwise it folds the path bottom-up from `(leaf, index, size-1)`,
consuming the whole path, and accepts iff the folded hash equals `root`;
for `size = 1`, `index = 0` the empty path is the only valid one and
acceptance is equivalent to `leaf = root`. -/
theorem verifyInclusion_characterization (H : Hash → Hash → Hash) (leaf : Hash)
    (index size : Nat) (root : Hash) (path : List Hash) :
    (index ≥ size →
      VerifyInclusion H leaf index size root path = .error .indexOutOfRange) ∧
    (index < size →
      path.length ≠ bitLen (index ^^^ (size - 1)) +
        onesCount (index >>> bitLen (index ^^^ (size - 1))) →
      VerifyInclusion H leaf index size root path = .error .badPathLength) ∧
    (index < size →
      path.length = bitLen (index ^^^ (size - 1)) +
        onesCount (index >>> bitLen (index ^^^ (size - 1))) →
      ∃ r, inclusionLoop H index (size - 1) leaf path = some (r, []) ∧
        VerifyInclusion H leaf index size root path =
          (if r = root then .ok () else .error .rootMismatch)) ∧
    (size = 1 → index = 0 →
      (VerifyInclusion H leaf index size root path = .ok () ↔ path = [] ∧ leaf = root)) := by
  have hipl : inclusionPathLength index size =
      bitLen (index ^^^ (size - 1)) + onesCount (index >>> bitLen (index ^^^ (size - 1))) := rfl
  refine ⟨?_, ?_, ?_, ?_⟩
  · intro hge
    simp [VerifyInclusion, hge]
  · intro hlt hne
    rw [VerifyInclusion, if_neg (by omega), if_pos (by rw [hipl]; exact hne)]
  · intro hlt hlen
    have hcc : inclusionPathLength index size = consumeCount index (size - 1) :=
      inclusionPathLength_eq_consumeCount hlt
    have hlen' : consumeCount index (size - 1) = path.length := by
      rw [← hcc, hipl, hlen]
    obtain ⟨r, hr⟩ := inclusionLoop_run H (size - 1) index leaf path (le_of_eq hlen')
    refine ⟨r, ?_, ?_⟩
    · rw [hr, hlen', List.drop_length]
    · rw [VerifyInclusion, if_neg (by omega),
        if_neg (by rw [hipl]; exact fun h => h hlen),
        if_neg (by rw [← pathLength_eq_inclusionPathLength] at hipl
                   rw [hipl]; exact fun h => h hlen)]
      rw [hr, hlen', List.drop_length]
      by_cases hroot : r = root
      · simp [hroot]
      · simp [hroot]
  · intro hsz hidx
    subst hsz; subst hidx
    have h0 : inclusionPathLength 0 1 = 0 := by
      simp [inclusionPathLength, bitLen_zero, onesCount_zero]
    cases path with
    | nil =>
      rw [VerifyInclusion, if_neg (by omega), if_neg (by simp [h0]),
        if_neg (by rw [pathLength_eq_inclusionPathLength]; simp [h0])]
      have hloop : inclusionLoop H 0 (1 - 1) leaf [] = some (leaf, []) := by
        rw [inclusionLoop.eq_def]; simp
      rw [hloop]
      by_cases hroot : leaf = root
      · simp [hroot]
      · simp [hroot]
    | cons p rest =>
      rw [VerifyInclusion, if_neg (by omega), if_pos (by simp [h0])]
      simp

/-- Witness for C2: in the single-leaf tree the empty path proves inclusion
of the root itself. -/
theorem verifyInclusion_characterization_witness :
    VerifyInclusion (fun a _ => a) [0] 0 1 [0] [] = .ok () :=
  ((verifyInclusion_characterization (fun a _ => a) [0] 0 1 [0] []).2.2.2 rfl rfl).mpr
    ⟨rfl, rfl⟩

/-- C3: the trivial cases of `VerifyConsistency`: equal sizes accept iff the
path is empty and the roots are equal; an empty old tree accepts iff the
path is empty and the old root is the hash of the empty input. -/
theorem verifyConsistency_trivial (hashBytes : Bytes → Hash) (H : Hash → Hash → Hash)
    (oldSize newSize : Nat) (oldRoot newRoot : Hash) (path : List Hash) :
    (oldSize = newSize →
      (VerifyConsistency hashBytes H oldSize newSize oldRoot newRoot path = .ok () ↔
        path = [] ∧ oldRoot = newRoot)) ∧
    (oldSize = 0 → 0 < newSize →
      (VerifyConsistency hashBytes H oldSize newSize oldRoot newRoot path = .ok () ↔
        path = [] ∧ oldRoot = HashEmptyTree hashBytes)) := by
  constructor
  · intro heq
    rw [VerifyConsistency, if_pos heq]
    cases path with
    | nil =>
      simp only [List.length_nil, gt_iff_lt, lt_irrefl, if_false]
      by_cases hroot : oldRoot = newRoot
      · simp [hroot]
      · simp [hroot]
    | cons p rest => simp
  · intro hzero hpos
    rw [VerifyConsistency, if_neg (by omega), if_pos hzero]
    cases path with
    | nil =>
      simp only [List.length_nil, gt_iff_lt, lt_irrefl, if_false]
      by_cases hroot : oldRoot = HashEmptyTree hashBytes
      · simp [hroot]
      · simp [hroot]
    | cons p rest => simp

/-- Witness for C3: equal sizes, equal roots, empty path is accepted. -/
theorem verifyConsistency_trivial_witness :
    VerifyConsistency (fun _ => []) (fun a _ => a) 5 5 [1] [1] [] = .ok () :=
  ((verifyConsistency_trivial (fun _ => []) (fun a _ => a) 5 5 [1] [1] []).1 rfl).mpr
    ⟨rfl, rfl⟩

/-- Unfolding of `VerifyConsistency` in the non-trivial case
`oldSize ≠ newSize`, `oldSize ≠ 0`. -/
theorem VerifyConsistency_main (hashBytes : Bytes → Hash) (H : Hash → Hash → Hash)
    (oldSize newSize : Nat) (oldRoot newRoot : Hash) (path : List Hash)
    (hne1 : oldSize ≠ newSize) (hne2 : oldSize ≠ 0) :
    VerifyConsistency hashBytes H oldSize newSize oldRoot newRoot path =
      (if path.length ≠ pathLength ((oldSize - 1) >>> trailingZeros oldSize)
            (((newSize - 1) >>> trailingZeros oldSize) + 1) +
          (if ((oldSize - 1) >>> trailingZeros oldSize) > 0 then 1 else 0)
       then .error .badPathLength
       else
         match consistencyStart oldRoot ((oldSize - 1) >>> trailingZeros oldSize) path with
         | none => .error .internalPanic
         | some (fr, path') =>
           match consistencyLoop H ((oldSize - 1) >>> trailingZeros oldSize)
               ((newSize - 1) >>> trailingZeros oldSize) fr fr path' with
           | none => .error .internalPanic
           | some (fr', sr', rest) =>
             if rest.length > 0 then .error .internalPanic
             else if fr' ≠ oldRoot then .error .oldRootMismatch
             else if sr' ≠ newRoot then .error .newRootMismatch
             else .ok ()) := by
  rw [VerifyConsistency, if_neg hne1, if_neg hne2]

/-- C4: for `0 < old < new`, `VerifyConsistency` rejects as malformed
exactly the paths whose length differs from `consistencyPathLength`;
a path of exactly that length reaches the two root comparisons with the
whole path consumed. -/
theorem verifyConsistency_pathLength (hashBytes : Bytes → Hash) (H : Hash → Hash → Hash)
    (oldSize newSize : Nat) (oldRoot newRoot : Hash) (path : List Hash)
    (h0 : 0 < oldSize) (hlt : oldSize < newSize) :
    (path.length ≠ consistencyPathLength oldSize newSize →
      VerifyConsistency hashBytes H oldSize newSize oldRoot newRoot path =
        .error .badPathLength) ∧
    (path.length = consistencyPathLength oldSize newSize →
      ∃ fr0 path' fr sr,
        consistencyStart oldRoot ((oldSize - 1) >>> trailingZeros oldSize) path =
          some (fr0, path') ∧
        consistencyLoop H ((oldSize - 1) >>> trailingZeros oldSize)
          ((newSize - 1) >>> trailingZeros oldSize) fr0 fr0 path' = some (fr, sr, []) ∧
        VerifyConsistency hashBytes H oldSize newSize oldRoot newRoot path =
          (if fr = oldRoot then
            (if sr = newRoot then .ok () else .error .newRootMismatch)
           else .error .oldRootMismatch)) := by
  have hwant : pathLength ((oldSize - 1) >>> trailingZeros oldSize)
      (((newSize - 1) >>> trailingZeros oldSize) + 1) +
      (if ((oldSize - 1) >>> trailingZeros oldSize) > 0 then 1 else 0) =
      consistencyPathLength oldSize newSize := rfl
  have hfs : (oldSize - 1) >>> trailingZeros oldSize ≤
      (newSize - 1) >>> trailingZeros oldSize := by
    simp only [Nat.shiftRight_eq_div_pow]
    exact Nat.div_le_div_right (by omega)
  have hcc : inclusionPathLength ((oldSize - 1) >>> trailingZeros oldSize)
      (((newSize - 1) >>> trailingZeros oldSize) + 1) =
      consumeCount ((oldSize - 1) >>> trailingZeros oldSize)
        ((newSize - 1) >>> trailingZeros oldSize) := by
    have := @inclusionPathLength_eq_consumeCount
      ((oldSize - 1) >>> trailingZeros oldSize)
      (((newSize - 1) >>> trailingZeros oldSize) + 1) (by omega)
    simpa using this
  constructor
  · intro hne
    rw [VerifyConsistency_main hashBytes H oldSize newSize oldRoot newRoot path
      (by omega) (by omega)]
    rw [if_pos (by rw [hwant]; exact hne)]
  · intro hlen
    rw [VerifyConsistency_main hashBytes H oldSize newSize oldRoot newRoot path
      (by omega) (by omega)]
    rw [if_neg (by rw [hwant]; exact fun hc => hc hlen)]
    by_cases hf : (oldSize - 1) >>> trailingZeros oldSize = 0
    · have hlen' : consumeCount ((oldSize - 1) >>> trailingZeros oldSize)
          ((newSize - 1) >>> trailingZeros oldSize) = path.length := by
        rw [← hcc, hlen]
        simp [consistencyPathLength, hf]
      have hstart : consistencyStart oldRoot ((oldSize - 1) >>> trailingZeros oldSize) path =
          some (oldRoot, path) := by
        simp [consistencyStart, hf]
      obtain ⟨fr, sr, hloop⟩ := consistencyLoop_run H
        ((newSize - 1) >>> trailingZeros oldSize)
        ((oldSize - 1) >>> trailingZeros oldSize) oldRoot oldRoot path (le_of_eq hlen')
      rw [hlen', List.drop_length] at hloop
      refine ⟨oldRoot, path, fr, sr, hstart, hloop, ?_⟩
      simp only [hstart, hloop, List.length_nil, gt_iff_lt, lt_irrefl, if_false]
      by_cases h1 : fr = oldRoot
      · by_cases h2 : sr = newRoot
        · simp [h1, h2]
        · simp [h1, h2]
      · simp [h1]
    · have hexp : consistencyPathLength oldSize newSize =
          inclusionPathLength ((oldSize - 1) >>> trailingZeros oldSize)
            (((newSize - 1) >>> trailingZeros oldSize) + 1) + 1 := by
        simp [consistencyPathLength, Nat.pos_of_ne_zero hf]
      have hpos : 0 < path.length := by
        rw [hlen, hexp]; omega
      cases path with
      | nil => simp at hpos
      | cons p rest =>
        have hlen' : consumeCount ((oldSize - 1) >>> trailingZeros oldSize)
            ((newSize - 1) >>> trailingZeros oldSize) = rest.length := by
          rw [← hcc]
          rw [hexp] at hlen
          simp only [List.length_cons] at hlen
          omega
        have hstart : consistencyStart oldRoot ((oldSize - 1) >>> trailingZeros oldSize)
            (p :: rest) = some (p, rest) := by
          simp [consistencyStart, hf]
        obtain ⟨fr, sr, hloop⟩ := consistencyLoop_run H
          ((newSize - 1) >>> trailingZeros oldSize)
          ((oldSize - 1) >>> trailingZeros oldSize) p p rest (le_of_eq hlen')
        rw [hlen', List.drop_length] at hloop
        refine ⟨p, rest, fr, sr, hstart, hloop, ?_⟩
        simp only [hstart, hloop, List.length_nil, gt_iff_lt, lt_irrefl, if_false]
        by_cases h1 : fr = oldRoot
        · by_cases h2 : sr = newRoot
          · simp [h1, h2]
          · simp [h1, h2]
        · simp [h1]

/-- Witness for C4: a two-element path for sizes 1 → 2 has the wrong length
(the correct length is 1) and is rejected as malformed. -/
theorem verifyConsistency_pathLength_witness :
    VerifyConsistency (fun _ => []) (fun a _ => a) 1 2 [1] [2] [[3], [4]] =
      .error .badPathLength := by
  have h := (verifyConsistency_pathLength (fun _ => []) (fun a _ => a) 1 2 [1] [2]
    [[3], [4]] (by decide) (by decide)).1
  have h1 : trailingZeros 1 = 0 := by
    rw [trailingZeros]; norm_num
  have hbl : bitLen 1 = 1 := by
    rw [bitLen_of_ne_zero (by norm_num)]
    norm_num [bitLen_zero]
  have h2 : consistencyPathLength 1 2 = 1 := by
    unfold consistencyPathLength inclusionPathLength
    rw [h1]
    norm_num [hbl, onesCount_zero]
  apply h
  simp [h2]

/-! ### Claims about `VerifyInclusionBatch` -/

theorem pathEqual_iff (a b : List Hash) : pathEqual a b = true ↔ a = b := by
  induction a generalizing b with
  | nil =>
    cases b with
    | nil => simp [pathEqual]
    | cons y ys => simp [pathEqual]
  | cons x xs ih =>
    cases b with
    | nil => simp [pathEqual]
    | cons y ys =>
      have hstep : pathEqual (x :: xs) (y :: ys) = (decide (x = y) && pathEqual xs ys) := by
        unfold pathEqual
        by_cases hl : xs.length = ys.length
        · rw [if_neg (show ¬((x :: xs).length ≠ (y :: ys).length) by
              simp only [List.length_cons]; omega),
            if_neg (show ¬(xs.length ≠ ys.length) by omega),
            List.zip_cons_cons, List.all_cons]
        · rw [if_pos (show (x :: xs).length ≠ (y :: ys).length by
              simp only [List.length_cons]; omega),
            if_pos (show xs.length ≠ ys.length from hl)]
          simp
      rw [hstep]
      rw [Bool.and_eq_true, decide_eq_true_eq, ih]
      constructor
      · rintro ⟨h1, h2⟩; rw [h1, h2]
      · intro h; injection h with h1 h2; exact ⟨h1, h2⟩

/-- `VerifyInclusionBatch` on a singleton leaf sequence, unfolded. -/
theorem batch_singleton_eq (H : Hash → Hash → Hash) (leaf : Hash) (fn size : Nat)
    (root : Hash) (startPath endPath : List Hash) :
    VerifyInclusionBatch H [leaf] fn size root startPath endPath =
      (if fn % 2 ^ 64 ≥ size then .error .endExceedsSize
       else if ¬ pathEqual startPath endPath then .error .inconsistentPaths
       else VerifyInclusion H leaf fn size root startPath) := by
  rw [VerifyInclusionBatch]
  norm_num

/-- C8: for a singleton leaf sequence the batch verifier accepts iff the two
paths are equal and `VerifyInclusion` accepts the start path; unequal paths
are rejected with a result that does not depend on the hash function. -/
theorem verifyInclusionBatch_singleton (H HO : Hash → Hash → Hash) (leaf : Hash)
    (fn size : Nat) (root : Hash) (startPath endPath : List Hash) :
    (VerifyInclusionBatch H [leaf] fn size root startPath endPath = .ok () ↔
      startPath = endPath ∧ VerifyInclusion H leaf fn size root startPath = .ok ()) ∧
    (startPath ≠ endPath →
      VerifyInclusionBatch H [leaf] fn size root startPath endPath =
        VerifyInclusionBatch HO [leaf] fn size root startPath endPath ∧
      VerifyInclusionBatch H [leaf] fn size root startPath endPath ≠ .ok ()) := by
  rw [batch_singleton_eq, batch_singleton_eq]
  by_cases hsz : fn % 2 ^ 64 ≥ size
  · rw [if_pos hsz, if_pos hsz]
    have hfs : fn ≥ size := le_trans hsz (Nat.mod_le fn (2 ^ 64))
    constructor
    · constructor
      · intro h; cases h
      · rintro ⟨-, hv⟩
        rw [VerifyInclusion, if_pos hfs] at hv
        cases hv
    · intro hne
      constructor
      · rfl
      · intro h; cases h
  · rw [if_neg hsz, if_neg hsz]
    by_cases hpe : startPath = endPath
    · have hb : pathEqual startPath endPath = true := (pathEqual_iff _ _).mpr hpe
      rw [hb, if_neg (by simp)]
      constructor
      · constructor
        · intro h; exact ⟨hpe, h⟩
        · rintro ⟨-, hv⟩; exact hv
      · intro hne; exact absurd hpe hne
    · have hb : pathEqual startPath endPath = false := by
        cases hb : pathEqual startPath endPath
        · rfl
        · exact absurd ((pathEqual_iff _ _).mp hb) hpe
      rw [hb, if_pos (by simp)]
      constructor
      · constructor
        · intro h; cases h
        · rintro ⟨hp, -⟩; exact absurd hp hpe
      · intro hne
        constructor
        · rfl
        · intro h; cases h

/-- Witness for C8: equal empty paths in the single-leaf tree reduce the
batch check to plain inclusion of the root. -/
theorem verifyInclusionBatch_singleton_witness :
    VerifyInclusionBatch (fun a _ => a) [[7]] 0 1 [7] [] [] = .ok () :=
  (verifyInclusionBatch_singleton (fun a _ => a) (fun a _ => a) [7] 0 1 [7] [] []).1.mpr
    ⟨rfl, ((verifyInclusion_characterization (fun a _ => a) [7] 0 1 [7] []).2.2.2
      rfl rfl).mpr ⟨rfl, rfl⟩⟩

/-- C9 (amended): the batch verifier rejects the empty leaf sequence, and
any range whose end `(first_index + |leaves| - 1) mod 2^64` — the `uint64`
value the program computes — reaches past the tree, before looking at
either path (the result does not mention the paths or the hash function). -/
theorem verifyInclusionBatch_rejects (H : Hash → Hash → Hash) (leaves : List Hash)
    (fn size : Nat) (root : Hash) (startPath endPath : List Hash) :
    (leaves = [] →
      VerifyInclusionBatch H leaves fn size root startPath endPath = .error .emptyRange) ∧
    (leaves ≠ [] → (fn + leaves.length - 1) % 2 ^ 64 ≥ size →
      VerifyInclusionBatch H leaves fn size root startPath endPath =
        .error .endExceedsSize) := by
  constructor
  · intro h
    subst h
    rw [VerifyInclusionBatch]
  · intro hne hge
    cases leaves with
    | nil => exact absurd rfl hne
    | cons l0 ltail =>
      simp only [VerifyInclusionBatch]
      rw [if_pos (by simpa using hge)]

/-- Witness for C9: a one-leaf range starting at index 5 in a tree of size 3. -/
theorem verifyInclusionBatch_rejects_witness :
    VerifyInclusionBatch (fun a _ => a) [[1]] 5 3 [0] [] [] = .error .endExceedsSize :=
  (verifyInclusionBatch_rejects (fun a _ => a) [[1]] 5 3 [0] [] []).2
    (by simp) (by norm_num)

theorem bitLen_eq {k : Nat} : ∀ {n : Nat}, 2 ^ k ≤ n → n < 2 ^ (k + 1) → bitLen n = k + 1 := by
  induction k with
  | zero =>
    intro n h1 h2
    have hn : n = 1 := by omega
    subst hn
    rw [bitLen_of_ne_zero (by norm_num), bitLen_zero]
  | succ k ih =>
    intro n h1 h2
    have hp : 0 < 2 ^ (k + 1) := Nat.pos_pow_of_pos _ (by decide)
    have hn : n ≠ 0 := by omega
    have hd1 : 2 ^ k ≤ n / 2 := by
      rw [Nat.le_div_iff_mul_le (by decide)]
      calc 2 ^ k * 2 = 2 ^ (k + 1) := (Nat.pow_succ 2 k).symm
      _ ≤ n := h1
    have hd2 : n / 2 < 2 ^ (k + 1) := by
      rw [Nat.div_lt_iff_lt_mul (by decide)]
      calc n < 2 ^ (k + 1 + 1) := h2
      _ = 2 ^ (k + 1) * 2 := Nat.pow_succ 2 (k + 1)
    rw [bitLen_of_ne_zero hn, ih hd1 hd2]

theorem inclusionPathLength_top64 : inclusionPathLength 18446744073709551615 10 = 64 := by
  rw [inclusionPathLength]
  show bitLen ((18446744073709551615 : Nat) ^^^ (10 - 1)) +
      onesCount ((18446744073709551615 : Nat) >>> bitLen ((18446744073709551615 : Nat) ^^^ (10 - 1))) = 64
  rw [show (10 : Nat) - 1 = 9 from rfl,
    show (18446744073709551615 : Nat) ^^^ 9 = 18446744073709551606 from by decide,
    show bitLen 18446744073709551606 = 64 from bitLen_eq (by norm_num) (by norm_num),
    show (18446744073709551615 : Nat) >>> 64 = 0 from by decide, onesCount_zero]

theorem inclusionPathLength_zero_ten : inclusionPathLength 0 10 = 4 := by
  rw [inclusionPathLength]
  show bitLen (0 ^^^ (10 - 1)) + onesCount (0 >>> bitLen (0 ^^^ (10 - 1))) = 4
  rw [show (0 : Nat) ^^^ (10 - 1) = 9 from by decide,
    show bitLen 9 = 4 from bitLen_eq (by norm_num) (by norm_num),
    show (0 : Nat) >>> 4 = 0 from by decide, onesCount_zero]

/-- For a two-leaf batch whose wrapped end of range passes the size guard,
the verifier next checks the two path lengths against
`inclusion_path_length` and reports the first mismatch. -/
theorem batch_eval_len2 (H : Hash → Hash → Hash) (l0 l1 : Hash)
    (fn size : Nat) (root : Hash) (startPath endPath : List Hash)
    (hg : ¬ ((fn + 2 - 1) % 2 ^ 64 ≥ size)) :
    (startPath.length ≠ inclusionPathLength fn size →
      VerifyInclusionBatch H [l0, l1] fn size root startPath endPath =
        .error .wrongStartPathLength) ∧
    (startPath.length = inclusionPathLength fn size →
      endPath.length ≠ inclusionPathLength ((fn + 2 - 1) % 2 ^ 64) size →
      VerifyInclusionBatch H [l0, l1] fn size root startPath endPath =
        .error .wrongEndPathLength) := by
  simp only [VerifyInclusionBatch]
  rw [show (([l0, l1] : List Hash)).length = 2 from rfl]
  rw [if_neg hg, if_neg (by norm_num : ¬ ((2 : Nat) = 1))]
  constructor
  · intro hs
    rw [if_pos hs]
  · intro hs he
    rw [if_neg (not_not_intro hs), if_pos he]

/-- Counterexample for C9 as originally stated: with `first_index` at the
top of the `uint64` range and two leaves, the mathematical end of range
`first_index + |leaves| - 1 = 2 ^ 64` lies past the tree of size 10, yet
the program's wrapped end `en = 0` passes the guard and the verifier goes
on to examine the paths: it does not return the end-exceeds-size error,
and its result depends on the start path. -/
theorem verifyInclusionBatch_wrap_counterexample :
    2 ^ 64 - 1 + ([[1], [2]] : List Hash).length - 1 ≥ 10 ∧
    VerifyInclusionBatch (fun a _ => a) [[1], [2]] (2 ^ 64 - 1) 10 [0] [] [] =
      .error .wrongStartPathLength ∧
    VerifyInclusionBatch (fun a _ => a) [[1], [2]] (2 ^ 64 - 1) 10 [0]
      (List.replicate 64 [0]) [] = .error .wrongEndPathLength := by
  refine ⟨by norm_num, ?_, ?_⟩
  · exact (batch_eval_len2 (fun a _ => a) [1] [2] (2 ^ 64 - 1) 10 [0] [] []
      (by norm_num)).1
      (by rw [show (2 ^ 64 - 1 : Nat) = 18446744073709551615 from by norm_num,
            inclusionPathLength_top64]
          norm_num)
  · exact (batch_eval_len2 (fun a _ => a) [1] [2] (2 ^ 64 - 1) 10 [0]
      (List.replicate 64 [0]) [] (by norm_num)).2
      (by rw [List.length_replicate,
            show (2 ^ 64 - 1 : Nat) = 18446744073709551615 from by norm_num,
            inclusionPathLength_top64])
      (by rw [show (2 ^ 64 - 1 + 2 - 1) % 2 ^ 64 = 0 from by norm_num,
            inclusionPathLength_zero_ten]
          norm_num)


/-! ### The signed tree head binary layout (claim C6) -/

namespace legacy

/-- `types.TreeHead` in the revision exercised by `tree_head_test.go`:
timestamp, tree size and root hash. -/
structure TreeHead where
  timestamp : Nat
  treeSize : Nat
  rootHash : Hash
deriving DecidableEq, Repr

/-- `TreeHead.ToBinary(logKeyHash)`.  Modelled from the spec: the types
package body is not among the provided source files; §3 defines the signing
domain as `timestamp(8) || size(8) || root_hash(32) || log_key_hash(32)`,
and `validTreeHeadBytes` in `tree_head_test.go` pins this exact layout. -/
def TreeHead.toBinary (th : TreeHead) (logKeyHash : Hash) : Bytes :=
  be64 th.timestamp ++ be64 th.treeSize ++ th.rootHash ++ logKeyHash

/-- A signed tree head: tree head plus signature. -/
structure SignedTreeHead where
  treeHead : TreeHead
  signature : Bytes
deriving DecidableEq, Repr

/-- `TreeHead.Sign`.  Modelled from the spec: signing operates on exactly
the `toBinary` bytes (the namespaced envelope is folded into the abstract
signing function `signFn`). -/
def TreeHead.sign (signFn : Bytes → Bytes) (th : TreeHead) (logKeyHash : Hash) :
    SignedTreeHead :=
  { treeHead := th, signature := signFn (th.toBinary logKeyHash) }

/-- `SignedTreeHead.Verify`.  Modelled from the spec: verification
reconstructs exactly the `toBinary` bytes. -/
def SignedTreeHead.verify (verifyFn : Bytes → Bytes → Bool) (sth : SignedTreeHead)
    (logKeyHash : Hash) : Bool :=
  verifyFn (sth.treeHead.toBinary logKeyHash) sth.signature

end legacy

/-- C6: `toBinary` is the 80-byte concatenation
`timestamp(8,BE) || size(8,BE) || root(32) || key_hash(32)`; on the test
fixture of `tree_head_test.go` (timestamp `0x0102030405060708`, size 257)
it yields the bytes asserted by `validTreeHeadBytes`; signing and
verification operate on exactly this byte string. -/
theorem treeHead_toBinary_layout (signFn : Bytes → Bytes)
    (verifyFn : Bytes → Bytes → Bool) (th : legacy.TreeHead) (logKeyHash : Hash)
    (hroot : isBytes 32 th.rootHash) (hkh : isBytes 32 logKeyHash) :
    th.toBinary logKeyHash =
      be64 th.timestamp ++ be64 th.treeSize ++ th.rootHash ++ logKeyHash ∧
    (th.toBinary logKeyHash).length = 80 ∧
    (∀ r kh, (legacy.TreeHead.mk 72623859790382856 257 r).toBinary kh =
      [1, 2, 3, 4, 5, 6, 7, 8] ++ [0, 0, 0, 0, 0, 0, 1, 1] ++ r ++ kh) ∧
    (legacy.TreeHead.sign signFn th logKeyHash).signature =
      signFn (th.toBinary logKeyHash) ∧
    (legacy.TreeHead.sign signFn th logKeyHash).verify verifyFn logKeyHash =
      verifyFn (th.toBinary logKeyHash) (signFn (th.toBinary logKeyHash)) := by
  refine ⟨rfl, ?_, fun r kh => by norm_num [legacy.TreeHead.toBinary, be64], rfl, rfl⟩
  simp [legacy.TreeHead.toBinary, be64, hroot.1, hkh.1]

/-- Witness for C6 at an all-zero root hash and key hash. -/
theorem treeHead_toBinary_layout_witness :
    ((legacy.TreeHead.mk 72623859790382856 257 (List.replicate 32 0)).toBinary
      (List.replicate 32 0)).length = 80 :=
  (treeHead_toBinary_layout id (fun _ _ => true)
    (legacy.TreeHead.mk 72623859790382856 257 (List.replicate 32 0))
    (List.replicate 32 0) (by simp [isBytes]) (by simp [isBytes])).2.1

/-! ### Wire types of the current revision (`pkg/types`) -/

namespace types

/-- `types.TreeHead` in the revision `pkg/proof` builds on: size and root
hash.  Modelled from the spec (§3, current variant). -/
structure TreeHead where
  size : Nat
  rootHash : Hash
deriving DecidableEq, Repr

/-- `types.SignedTreeHead`: tree head plus log signature. -/
structure SignedTreeHead where
  treeHead : TreeHead
  signature : Bytes
deriving DecidableEq, Repr

/-- `types.Cosignature`: witness key hash, timestamp, signature. -/
structure Cosignature where
  keyHash : Hash
  timestamp : Nat
  signature : Bytes
deriving DecidableEq, Repr

/-- `types.CosignedTreeHead`: signed tree head plus cosignatures. -/
structure CosignedTreeHead where
  signedTreeHead : SignedTreeHead
  cosignatures : List Cosignature
deriving DecidableEq, Repr

/-- The embedded `Size` field access `cth.Size` of Go. -/
def CosignedTreeHead.size (cth : CosignedTreeHead) : Nat :=
  cth.signedTreeHead.treeHead.size

/-- `types.Leaf`: checksum, signature, key hash. -/
structure Leaf where
  checksum : Hash
  signature : Bytes
  keyHash : Hash
deriving DecidableEq, Repr

/-- `types.InclusionProof`: leaf index, tree size, path. -/
structure InclusionProof where
  leafIndex : Nat
  treeSize : Nat
  path : List Hash
deriving DecidableEq, Repr

/-- `types.InclusionProof.Verify`.  Modelled from the spec: runs
`VerifyInclusion` of the leaf hash against the tree head (§4.6). -/
def InclusionProof.verify (H : Hash → Hash → Hash) (leafHash : Hash)
    (th : TreeHead) (pr : InclusionProof) : Except MerkleErr Unit :=
  VerifyInclusion H leafHash pr.leafIndex th.size th.rootHash pr.path

/-- `types.Leaf.ToHash`: `H(0x00 || checksum || signature || key_hash)`.
Modelled from the spec (§3). -/
def Leaf.toHash (hashBytes : Bytes → Hash) (l : Leaf) : Hash :=
  hashBytes (0 :: (l.checksum ++ l.signature ++ l.keyHash))

end types

/-! ### The SigsumProof bundle (`pkg/proof`) -/

/-- An Ed25519 public key (32 bytes). -/
abbrev PublicKey := Bytes

/- Errors of the proof package.  Constructors cover the `fmt.Errorf` sites
of `proof.go`; `merkle` embeds a Merkle verification error, `policyFailure`
stands for an arbitrary policy error, `malformedInput` for any failure
inside the ASCII parser primitives. -/
inductive ProofErr where
  | checksumMismatch
  | unexpectedKeyHash
  | leafSignatureInvalid
  | policyFailure (tag : Nat)
  | merkle (e : MerkleErr)
  | malformedInput
  | unexpectedVersion
  | emptyTree
  | tooFewParts
  | tooManyParts
deriving DecidableEq, Repr

/-- `proof.ShortLeaf`: leaf with the checksum truncated to 2 bytes. -/
structure ShortLeaf where
  shortChecksum : Bytes
  signature : Bytes
  keyHash : Hash
deriving DecidableEq, Repr

/-- `ShortLeaf.ToLeaf`: reject unless the stored short checksum equals the
first 2 bytes of the recomputed checksum. -/
def ShortLeaf.toLeaf (l : ShortLeaf) (checksum : Hash) : Except ProofErr types.Leaf :=
  if l.shortChecksum ≠ checksum.take 2 then .error .checksumMismatch
  else .ok { checksum := checksum, signature := l.signature, keyHash := l.keyHash }

/-- `proof.SigsumProof`. -/
structure SigsumProof where
  logKeyHash : Hash
  leaf : ShortLeaf
  treeHead : types.CosignedTreeHead
  inclusion : types.InclusionProof
deriving DecidableEq, Repr

/-- `SigsumProof.Verify`, translated from `proof.go`.  The primitives are
abstract: `hashBytes` is `crypto.HashBytes`, `H` the interior-node hash,
`leafVerify` the namespaced Ed25519 leaf-signature check and
`policyVerify` the policy's `VerifyCosignedTreeHead`. -/
def SigsumProof.verify (hashBytes : Bytes → Hash) (H : Hash → Hash → Hash)
    (leafVerify : types.Leaf → PublicKey → Bool)
    (policyVerify : Hash → types.CosignedTreeHead → Except ProofErr Unit)
    (sp : SigsumProof) (msg : Hash) (submitKey : PublicKey) : Except ProofErr Unit :=
  let checksum := hashBytes msg
  match sp.leaf.toLeaf checksum with
  | .error e => .error e
  | .ok leaf =>
    if sp.leaf.keyHash ≠ hashBytes submitKey then .error .unexpectedKeyHash
    else if ¬ leafVerify leaf submitKey then .error .leafSignatureInvalid
    else
      match policyVerify sp.logKeyHash sp.treeHead with
      | .error e => .error e
      | .ok _ =>
        (sp.inclusion.verify H (types.Leaf.toHash hashBytes leaf)
          sp.treeHead.signedTreeHead.treeHead).mapError .merkle

/-- The verification cascade exactly as §4.6 of the spec words it, for
comparison with the implementation. -/
def specVerifyCascade (hashBytes : Bytes → Hash) (H : Hash → Hash → Hash)
    (leafVerify : types.Leaf → PublicKey → Bool)
    (policyVerify : Hash → types.CosignedTreeHead → Except ProofErr Unit)
    (sp : SigsumProof) (msg : Hash) (submitKey : PublicKey) : Except ProofErr Unit :=
  let checksum := hashBytes msg
  if sp.leaf.shortChecksum ≠ checksum.take 2 then .error .checksumMismatch
  else if sp.leaf.keyHash ≠ hashBytes submitKey then .error .unexpectedKeyHash
  else if ¬ leafVerify ⟨checksum, sp.leaf.signature, sp.leaf.keyHash⟩ submitKey then
    .error .leafSignatureInvalid
  else
    match policyVerify sp.logKeyHash sp.treeHead with
    | .error e => .error e
    | .ok _ =>
      (sp.inclusion.verify H
        (types.Leaf.toHash hashBytes ⟨checksum, sp.leaf.signature, sp.leaf.keyHash⟩)
        sp.treeHead.signedTreeHead.treeHead).mapError .merkle

/-- C1: `SigsumProof.Verify` performs exactly the checks of §4.6, in order,
returning the first failure: it equals the spec cascade, and each early
failure is returned without consulting the later checks (the result is the
same for every later-check function). -/
theorem sigsumProof_verify_cascade (hashBytes : Bytes → Hash) (H : Hash → Hash → Hash)
    (leafVerify : types.Leaf → PublicKey → Bool)
    (policyVerify : Hash → types.CosignedTreeHead → Except ProofErr Unit)
    (sp : SigsumProof) (msg : Hash) (submitKey : PublicKey) :
    SigsumProof.verify hashBytes H leafVerify policyVerify sp msg submitKey =
      specVerifyCascade hashBytes H leafVerify policyVerify sp msg submitKey ∧
    (sp.leaf.shortChecksum ≠ (hashBytes msg).take 2 →
      ∀ lv pv, SigsumProof.verify hashBytes H lv pv sp msg submitKey =
        .error .checksumMismatch) ∧
    (sp.leaf.shortChecksum = (hashBytes msg).take 2 →
      sp.leaf.keyHash ≠ hashBytes submitKey →
      ∀ lv pv, SigsumProof.verify hashBytes H lv pv sp msg submitKey =
        .error .unexpectedKeyHash) ∧
    (sp.leaf.shortChecksum = (hashBytes msg).take 2 →
      sp.leaf.keyHash = hashBytes submitKey →
      leafVerify ⟨hashBytes msg, sp.leaf.signature, sp.leaf.keyHash⟩ submitKey = false →
      ∀ pv, SigsumProof.verify hashBytes H leafVerify pv sp msg submitKey =
        .error .leafSignatureInvalid) ∧
    (∀ e, sp.leaf.shortChecksum = (hashBytes msg).take 2 →
      sp.leaf.keyHash = hashBytes submitKey →
      leafVerify ⟨hashBytes msg, sp.leaf.signature, sp.leaf.keyHash⟩ submitKey = true →
      policyVerify sp.logKeyHash sp.treeHead = .error e →
      SigsumProof.verify hashBytes H leafVerify policyVerify sp msg submitKey = .error e) ∧
    (sp.leaf.shortChecksum = (hashBytes msg).take 2 →
      sp.leaf.keyHash = hashBytes submitKey →
      leafVerify ⟨hashBytes msg, sp.leaf.signature, sp.leaf.keyHash⟩ submitKey = true →
      policyVerify sp.logKeyHash sp.treeHead = .ok () →
      (SigsumProof.verify hashBytes H leafVerify policyVerify sp msg submitKey = .ok () ↔
        VerifyInclusion H
          (types.Leaf.toHash hashBytes ⟨hashBytes msg, sp.leaf.signature, sp.leaf.keyHash⟩)
          sp.inclusion.leafIndex sp.treeHead.signedTreeHead.treeHead.size
          sp.treeHead.signedTreeHead.treeHead.rootHash sp.inclusion.path = .ok ())) := by
  refine ⟨?_, ?_, ?_, ?_, ?_, ?_⟩
  · by_cases hck : sp.leaf.shortChecksum = (hashBytes msg).take 2
    · simp only [SigsumProof.verify, specVerifyCascade, ShortLeaf.toLeaf, hck,
        ne_eq, not_true, if_false]
    · simp only [SigsumProof.verify, specVerifyCascade, ShortLeaf.toLeaf, ne_eq, hck,
        not_false_iff, if_true]
  · intro hck lv pv
    simp only [SigsumProof.verify, ShortLeaf.toLeaf, ne_eq, hck, not_false_iff, if_true]
  · intro hck hkh lv pv
    simp only [SigsumProof.verify, ShortLeaf.toLeaf, hck, ne_eq, not_true, if_false,
      hkh, not_false_iff, if_true]
  · intro hck hkh hlv pv
    rw [hkh] at hlv
    simp only [SigsumProof.verify, ShortLeaf.toLeaf, hck, ne_eq, not_true, if_false,
      hkh, hlv, Bool.false_eq_true, not_false_iff, if_true]
  · intro e hck hkh hlv hpv
    rw [hkh] at hlv
    simp only [SigsumProof.verify, ShortLeaf.toLeaf, hck, ne_eq, not_true, if_false,
      hkh, hlv, Bool.true_eq_false, not_true, hpv]
  · intro hck hkh hlv hpv
    rw [hkh] at hlv
    simp only [SigsumProof.verify, ShortLeaf.toLeaf, hck, ne_eq, not_true, if_false,
      hkh, hlv, Bool.true_eq_false, not_true, hpv, types.InclusionProof.verify]
    cases hres : VerifyInclusion H
        (types.Leaf.toHash hashBytes ⟨hashBytes msg, sp.leaf.signature, hashBytes submitKey⟩)
        sp.inclusion.leafIndex sp.treeHead.signedTreeHead.treeHead.size
        sp.treeHead.signedTreeHead.treeHead.rootHash sp.inclusion.path with
    | ok u => cases u; simp [Except.mapError, hres]
    | error e => simp [Except.mapError, hres]

/-- Witness for C1: a short checksum that disagrees with the recomputed
checksum is rejected with the checksum-mismatch error, whatever the later
checks would say. -/
theorem sigsumProof_verify_cascade_witness :
    SigsumProof.verify (fun _ => List.replicate 32 1) (fun a _ => a) (fun _ _ => true)
      (fun _ _ => .ok ())
      ⟨[], ⟨[0, 0], [], []⟩, ⟨⟨⟨1, []⟩, []⟩, []⟩, ⟨0, 0, []⟩⟩ [] [] =
      .error .checksumMismatch :=
  (sigsumProof_verify_cascade (fun _ => List.replicate 32 1) (fun a _ => a)
    (fun _ _ => true) (fun _ _ => .ok ())
    ⟨[], ⟨[0, 0], [], []⟩, ⟨⟨⟨1, []⟩, []⟩, []⟩, ⟨0, 0, []⟩⟩ [] []).2.1
    (by simp) (fun _ _ => true) (fun _ _ => .ok ())

/-! ### Character strings and line splitting

Texts are lists of characters.  `splitOnChar` models Go `strings.Split`
with a one-character separator, `splitDoubleNL` models
`bytes.Split(data, "\n\n")` from `proof.go`. -/

abbrev Str := List Char

/-- Go `strings.Split(s, string(c))`. -/
def splitOnChar (c : Char) : Str → List Str
  | [] => [[]]
  | x :: r =>
    if x = c then [] :: splitOnChar c r
    else
      match splitOnChar c r with
      | [] => [[x]]
      | p :: ps => (x :: p) :: ps

theorem splitOnChar_ne_nil (c : Char) (s : Str) : splitOnChar c s ≠ [] := by
  cases s with
  | nil => simp [splitOnChar]
  | cons x r =>
    rw [splitOnChar]
    by_cases hx : x = c
    · simp [hx]
    · simp only [hx, if_false]
      cases splitOnChar c r with
      | nil => simp
      | cons p ps => simp

theorem splitOnChar_of_not_mem (c : Char) (s : Str) (h : c ∉ s) :
    splitOnChar c s = [s] := by
  induction s with
  | nil => rfl
  | cons x r ih =>
    rw [splitOnChar]
    have hx : ¬ x = c := fun hc => h (hc ▸ List.mem_cons_self x r)
    rw [if_neg hx, ih (fun hc => h (List.mem_cons_of_mem x hc))]

theorem splitOnChar_append (c : Char) (a b : Str) (h : c ∉ a) :
    splitOnChar c (a ++ c :: b) = a :: splitOnChar c b := by
  induction a with
  | nil =>
    rw [List.nil_append, splitOnChar, if_pos rfl]
  | cons x a' ih =>
    have hx : ¬ x = c := fun hc => h (hc ▸ List.mem_cons_self x a')
    rw [List.cons_append, splitOnChar, if_neg hx,
      ih (fun hc => h (List.mem_cons_of_mem x hc))]

/-- The concatenation of newline-terminated lines (the writers always end
each line with `\n`). -/
def linesToText : List Str → Str
  | [] => []
  | l :: ls => l ++ '\n' :: linesToText ls

/-- Recover the lines of a newline-terminated text; `none` when the text
does not end in a newline (a parse error for the line-oriented codec). -/
def textToLines (s : Str) : Option (List Str) :=
  let ps := splitOnChar '\n' s
  if ps.getLast? = some [] then some ps.dropLast else none

theorem splitOnChar_linesToText (ls : List Str) (h : ∀ l ∈ ls, '\n' ∉ l) :
    splitOnChar '\n' (linesToText ls) = ls ++ [[]] := by
  induction ls with
  | nil => rfl
  | cons l ls' ih =>
    rw [linesToText, splitOnChar_append _ _ _ (h l (List.mem_cons_self l ls')),
      ih (fun x hx => h x (List.mem_cons_of_mem l hx))]
    simp

theorem textToLines_linesToText (ls : List Str) (h : ∀ l ∈ ls, '\n' ∉ l) :
    textToLines (linesToText ls) = some ls := by
  rw [textToLines]
  have hs := splitOnChar_linesToText ls h
  simp only [hs]
  rw [if_pos]
  · rw [List.dropLast_concat]
  · rw [List.getLast?_concat]

/-- Does the text contain two adjacent newlines? -/
def hasDNL : Str → Bool
  | [] => false
  | [_] => false
  | c1 :: c2 :: rest => (c1 = '\n' && c2 = '\n') || hasDNL (c2 :: rest)

/-- Go `bytes.Split(data, []byte("\n\n"))`: split on the leftmost
occurrence of two adjacent newlines, then continue after it. -/
def splitDoubleNL : Str → List Str
  | [] => [[]]
  | [c] => [[c]]
  | c1 :: c2 :: rest =>
    if c1 = '\n' ∧ c2 = '\n' then [] :: splitDoubleNL rest
    else
      match splitDoubleNL (c2 :: rest) with
      | [] => [[c1]]
      | p :: ps => (c1 :: p) :: ps

theorem hasDNL_cons_cons (c1 c2 : Char) (r : Str) :
    hasDNL (c1 :: c2 :: r) = ((c1 = '\n' && c2 = '\n') || hasDNL (c2 :: r)) := rfl

theorem splitDoubleNL_of_no_dnl (s : Str) (h : hasDNL s = false) :
    splitDoubleNL s = [s] := by
  induction s with
  | nil => rfl
  | cons c r ih =>
    cases r with
    | nil => rfl
    | cons c2 rest =>
      rw [hasDNL_cons_cons] at h
      have h1 : ¬(c = '\n' ∧ c2 = '\n') := by
        intro hc
        simp [hc.1, hc.2] at h
      have h2 : hasDNL (c2 :: rest) = false := by
        cases hd : hasDNL (c2 :: rest)
        · rfl
        · simp [hd] at h
      rw [splitDoubleNL, if_neg h1, ih h2]

theorem splitDoubleNL_append (a b : Str) (h : hasDNL (a ++ ['\n']) = false) :
    splitDoubleNL (a ++ '\n' :: '\n' :: b) = a :: splitDoubleNL b := by
  induction a with
  | nil =>
    rw [List.nil_append, splitDoubleNL, if_pos ⟨rfl, rfl⟩]
  | cons c a' ih =>
    cases a' with
    | nil =>
      rw [List.cons_append, List.nil_append, hasDNL_cons_cons] at h
      have hc : ¬(c = '\n' ∧ '\n' = '\n') := by
        intro hcc
        simp [hcc.1] at h
      rw [List.cons_append, List.nil_append, splitDoubleNL, if_neg hc,
        splitDoubleNL, if_pos ⟨rfl, rfl⟩]
    | cons c2 a'' =>
      rw [List.cons_append, List.cons_append, hasDNL_cons_cons] at h
      have h1 : ¬(c = '\n' ∧ c2 = '\n') := by
        intro hc
        simp [hc.1, hc.2] at h
      have h2 : hasDNL ((c2 :: a'') ++ ['\n']) = false := by
        cases hd : hasDNL ((c2 :: a'') ++ ['\n'])
        · rfl
        · rw [List.cons_append] at hd
          simp [hd] at h
      rw [List.cons_append, List.cons_append, splitDoubleNL, if_neg h1]
      have := ih h2
      rw [List.cons_append] at this
      rw [this]

theorem hasDNL_append_of_not_mem (l s : Str) (hl : '\n' ∉ l) :
    hasDNL (l ++ s) = hasDNL s := by
  induction l with
  | nil => rfl
  | cons c l' ih =>
    have hc : ¬ c = '\n' := fun h => hl (h ▸ List.mem_cons_self c l')
    have ih' := ih (fun h => hl (List.mem_cons_of_mem c h))
    cases hls : l' ++ s with
    | nil =>
      have hs : s = [] := by
        cases l' <;> simp at hls
        · exact hls
      subst hs
      rw [List.cons_append, hls]
      rfl
    | cons d r =>
      rw [List.cons_append, hls, hasDNL]
      rw [hls] at ih'
      rw [ih']
      simp [hc]

/-! ### Hex and decimal codecs (the value syntax of the ASCII format,
modelled from the spec: lowercase hex for byte fields, decimal for
unsigned integers) -/

/-- Lowercase hex digit for a value below 16. -/
def hexDigit (n : Nat) : Char :=
  if n < 10 then Char.ofNat (48 + n) else Char.ofNat (97 + n - 10)

/-- Two lowercase hex digits of a byte. -/
def byteToHex (b : Nat) : Str := [hexDigit (b / 16), hexDigit (b % 16)]

/-- Lowercase hex of a byte string. -/
def bytesToHex : Bytes → Str
  | [] => []
  | b :: bs => byteToHex b ++ bytesToHex bs

/-- Value of a lowercase hex digit. -/
def hexDigitVal (c : Char) : Option Nat :=
  if 48 ≤ c.toNat ∧ c.toNat ≤ 57 then some (c.toNat - 48)
  else if 97 ≤ c.toNat ∧ c.toNat ≤ 102 then some (c.toNat - 87)
  else none

/-- Decode a lowercase hex string of even length into bytes. -/
def hexToBytes : Str → Option Bytes
  | [] => some []
  | [_] => none
  | c1 :: c2 :: rest =>
    match hexDigitVal c1, hexDigitVal c2, hexToBytes rest with
    | some h, some l, some bs => some ((16 * h + l) :: bs)
    | _, _, _ => none

theorem hexDigitVal_hexDigit : ∀ n < 16, hexDigitVal (hexDigit n) = some n := by decide

theorem hexDigit_plain : ∀ n < 16,
    hexDigit n ≠ '\n' ∧ hexDigit n ≠ '=' ∧ hexDigit n ≠ ' ' := by decide

theorem mem_byteToHex_plain (b : Nat) (hb : b < 256) :
    ∀ c ∈ byteToHex b, c ≠ '\n' ∧ c ≠ '=' ∧ c ≠ ' ' := by
  intro c hc
  have h1 : b / 16 < 16 := Nat.div_lt_of_lt_mul (by omega)
  have h2 : b % 16 < 16 := Nat.mod_lt _ (by omega)
  rw [byteToHex] at hc
  rcases List.mem_cons.mp hc with he | he
  · subst he; exact hexDigit_plain _ h1
  · rcases List.mem_cons.mp he with he2 | he2
    · subst he2; exact hexDigit_plain _ h2
    · cases he2

theorem mem_bytesToHex_plain (bs : Bytes) (hb : ∀ b ∈ bs, b < 256) :
    ∀ c ∈ bytesToHex bs, c ≠ '\n' ∧ c ≠ '=' ∧ c ≠ ' ' := by
  induction bs with
  | nil => intro c hc; cases hc
  | cons b bs' ih =>
    intro c hc
    rw [bytesToHex] at hc
    rcases List.mem_append.mp hc with hc | hc
    · exact mem_byteToHex_plain b (hb b (List.mem_cons_self b bs')) c hc
    · exact ih (fun x hx => hb x (List.mem_cons_of_mem b hx)) c hc

theorem hexToBytes_bytesToHex (bs : Bytes) (hb : ∀ b ∈ bs, b < 256) :
    hexToBytes (bytesToHex bs) = some bs := by
  induction bs with
  | nil => rfl
  | cons b bs' ih =>
    have hblt : b < 256 := hb b (List.mem_cons_self b bs')
    have h1 : b / 16 < 16 := Nat.div_lt_of_lt_mul (by omega)
    have h2 : b % 16 < 16 := Nat.mod_lt _ (by omega)
    rw [bytesToHex, byteToHex, List.cons_append, List.cons_append, List.nil_append,
      hexToBytes, hexDigitVal_hexDigit _ h1, hexDigitVal_hexDigit _ h2,
      ih (fun x hx => hb x (List.mem_cons_of_mem b hx))]
    show some ((16 * (b / 16) + b % 16) :: bs') = some (b :: bs')
    rw [Nat.div_add_mod]

theorem length_bytesToHex (bs : Bytes) : (bytesToHex bs).length = 2 * bs.length := by
  induction bs with
  | nil => rfl
  | cons b bs' ih =>
    rw [bytesToHex, byteToHex]
    simp [ih]
    omega

/-- Decimal digits of a natural number, most significant first. -/
def decDigits (n : Nat) : List Nat :=
  if h : n < 10 then [n] else decDigits (n / 10) ++ [n % 10]
termination_by n
decreasing_by exact Nat.div_lt_self (by omega) (by decide)

/-- Canonical decimal representation. -/
def decToStr (n : Nat) : Str := (decDigits n).map (fun d => Char.ofNat (48 + d))

/-- Parse a decimal string: at least one digit, digits only. -/
def strToDec? (s : Str) : Option Nat :=
  if s = [] then none
  else if s.all (fun c => 48 ≤ c.toNat ∧ c.toNat ≤ 57) then
    some (s.foldl (fun a c => 10 * a + (c.toNat - 48)) 0)
  else none

theorem decDigits_lt (n : Nat) : ∀ d ∈ decDigits n, d < 10 := by
  induction n using Nat.strong_induction_on with
  | _ n ih =>
    intro d hd
    rw [decDigits] at hd
    by_cases h : n < 10
    · simp [h] at hd
      omega
    · simp only [h, dite_false] at hd
      rcases List.mem_append.mp hd with hd | hd
      · exact ih (n / 10) (Nat.div_lt_self (by omega) (by decide)) d hd
      · simp at hd
        omega

theorem decDigits_ne_nil (n : Nat) : decDigits n ≠ [] := by
  rw [decDigits]
  by_cases h : n < 10
  · simp [h]
  · simp [h]

theorem digitChar_plain : ∀ d < 10, Char.ofNat (48 + d) ≠ '\n' ∧
    Char.ofNat (48 + d) ≠ '=' ∧ Char.ofNat (48 + d) ≠ ' ' ∧
    48 ≤ (Char.ofNat (48 + d)).toNat ∧ (Char.ofNat (48 + d)).toNat ≤ 57 ∧
    (Char.ofNat (48 + d)).toNat - 48 = d := by decide

theorem mem_decToStr_plain (n : Nat) :
    ∀ c ∈ decToStr n, c ≠ '\n' ∧ c ≠ '=' ∧ c ≠ ' ' := by
  intro c hc
  rw [decToStr] at hc
  obtain ⟨d, hd, rfl⟩ := List.mem_map.mp hc
  have := digitChar_plain d (decDigits_lt n d hd)
  exact ⟨this.1, this.2.1, this.2.2.1⟩

theorem foldl_decDigits (n : Nat) : ∀ a : Nat,
    ((decDigits n).map (fun d => Char.ofNat (48 + d))).foldl
      (fun a c => 10 * a + (c.toNat - 48)) a = a * 10 ^ (decDigits n).length + n := by
  induction n using Nat.strong_induction_on with
  | _ n ih =>
    intro a
    rw [decDigits]
    by_cases h : n < 10
    · simp only [h, dite_true, List.map_cons, List.map_nil, List.foldl_cons, List.foldl_nil,
        List.length_cons, List.length_nil]
      rw [(digitChar_plain n h).2.2.2.2.2]
      have hp : (10 : Nat) ^ (0 + 1) = 10 := by norm_num
      rw [hp]
      omega
    · simp only [h, dite_false, List.map_append, List.foldl_append, List.length_append]
      rw [ih (n / 10) (Nat.div_lt_self (by omega) (by decide)) a]
      simp only [List.map_cons, List.map_nil, List.foldl_cons, List.foldl_nil,
        List.length_cons, List.length_nil]
      rw [(digitChar_plain (n % 10) (Nat.mod_lt _ (by omega))).2.2.2.2.2]
      rw [Nat.pow_add]
      have hp : (10 : Nat) ^ (0 + 1) = 10 := by norm_num
      rw [hp, ← Nat.mul_assoc]
      generalize a * 10 ^ (decDigits (n / 10)).length = X
      omega

theorem strToDec_decToStr (n : Nat) : strToDec? (decToStr n) = some n := by
  rw [strToDec?]
  have hne : decToStr n ≠ [] := by
    rw [decToStr]
    intro hc
    exact decDigits_ne_nil n (List.map_eq_nil_iff.mp hc)
  rw [if_neg hne]
  have hall : (decToStr n).all (fun c => 48 ≤ c.toNat ∧ c.toNat ≤ 57) = true := by
    rw [List.all_eq_true]
    intro c hc
    rw [decToStr] at hc
    obtain ⟨d, hd, rfl⟩ := List.mem_map.mp hc
    have := digitChar_plain d (decDigits_lt n d hd)
    simp only [decide_eq_true_eq]
    exact ⟨this.2.2.2.1, this.2.2.2.2.1⟩
  rw [if_pos hall]
  rw [decToStr, foldl_decDigits n 0]
  simp

/-! ### The line-oriented ASCII parser (`pkg/ascii`, modelled from the
spec §4.2: `key=value` lines, exact key match, lowercase hex and decimal
values, repeated keys read until a different key or EOF) -/

/-- Split a line at its first `=`. -/
def splitFirstEq : Str → Option (Str × Str)
  | [] => none
  | c :: r =>
    if c = '=' then some ([], r)
    else
      match splitFirstEq r with
      | none => none
      | some (k, v) => some (c :: k, v)

theorem splitFirstEq_key (key v : Str) (h : '=' ∉ key) :
    splitFirstEq (key ++ '=' :: v) = some (key, v) := by
  induction key with
  | nil => rw [List.nil_append, splitFirstEq, if_pos rfl]
  | cons c k' ih =>
    have hc : ¬ c = '=' := fun he => h (he ▸ List.mem_cons_self c k')
    rw [List.cons_append, splitFirstEq, if_neg hc,
      ih (fun he => h (List.mem_cons_of_mem c he))]

theorem splitFirstEq_inv (l : Str) : ∀ k v, splitFirstEq l = some (k, v) →
    l = k ++ '=' :: v ∧ '=' ∉ k := by
  induction l with
  | nil => intro k v h; cases h
  | cons c r ih =>
    intro k v h
    rw [splitFirstEq] at h
    by_cases hc : c = '='
    · rw [if_pos hc] at h
      injection h with h
      injection h with h1 h2
      subst hc
      rw [← h1, ← h2]
      exact ⟨rfl, by simp⟩
    · rw [if_neg hc] at h
      cases hr : splitFirstEq r with
      | none => rw [hr] at h; cases h
      | some kv =>
        obtain ⟨k', v'⟩ := kv
        rw [hr] at h
        have h' : some (c :: k', v') = some (k, v) := h
        injection h' with h'
        injection h' with h1 h2
        obtain ⟨hl, hk⟩ := ih k' v' hr
        rw [← h1, ← h2]
        constructor
        · rw [List.cons_append, ← hl]
        · intro hm
          rcases List.mem_cons.mp hm with he | he
          · exact hc he.symm
          · exact hk he

/-- A `key=value` line. -/
def kvLine (key v : Str) : Str := key ++ '=' :: v

/-- Read the next line, requiring an exact key match. -/
def nextLine (key : Str) (lines : List Str) : Except ProofErr (Str × List Str) :=
  match lines with
  | [] => .error .malformedInput
  | l :: rest =>
    match splitFirstEq l with
    | none => .error .malformedInput
    | some (k, v) => if k = key then .ok (v, rest) else .error .malformedInput

theorem nextLine_cons (key v : Str) (rest : List Str) (h : '=' ∉ key) :
    nextLine key (kvLine key v :: rest) = .ok (v, rest) := by
  rw [nextLine, kvLine, splitFirstEq_key key v h]
  show (if key = key then Except.ok (v, rest) else Except.error ProofErr.malformedInput) =
    Except.ok (v, rest)
  rw [if_pos rfl]

/-- `Parser.GetInt`: a decimal value below `2^64`. -/
def getInt (key : Str) (lines : List Str) : Except ProofErr (Nat × List Str) :=
  match nextLine key lines with
  | .error e => .error e
  | .ok (v, rest) =>
    match strToDec? v with
    | none => .error .malformedInput
    | some n => if n < 2 ^ 64 then .ok (n, rest) else .error .malformedInput

/-- `Parser.GetHash` / `GetSignature` / the short checksum: a lowercase hex
value of exactly `n` bytes. -/
def getBytesOfLen (n : Nat) (key : Str) (lines : List Str) :
    Except ProofErr (Bytes × List Str) :=
  match nextLine key lines with
  | .error e => .error e
  | .ok (v, rest) =>
    match hexToBytes v with
    | none => .error .malformedInput
    | some bs => if bs.length = n then .ok (bs, rest) else .error .malformedInput

/-- `Parser.GetValues(key, n)`: the value split on single spaces into
exactly `n` fields. -/
def getValues (key : Str) (n : Nat) (lines : List Str) :
    Except ProofErr (List Str × List Str) :=
  match nextLine key lines with
  | .error e => .error e
  | .ok (v, rest) =>
    let fields := splitOnChar ' ' v
    if fields.length = n then .ok (fields, rest) else .error .malformedInput

theorem getInt_kv (key : Str) (n : Nat) (rest : List Str) (hk : '=' ∉ key)
    (hn : n < 2 ^ 64) :
    getInt key (kvLine key (decToStr n) :: rest) = .ok (n, rest) := by
  rw [getInt, nextLine_cons key _ rest hk]
  show (match strToDec? (decToStr n) with
    | none => Except.error ProofErr.malformedInput
    | some m => if m < 2 ^ 64 then Except.ok (m, rest) else Except.error ProofErr.malformedInput) =
    Except.ok (n, rest)
  rw [strToDec_decToStr]
  show (if n < 2 ^ 64 then Except.ok (n, rest) else Except.error ProofErr.malformedInput) =
    Except.ok (n, rest)
  rw [if_pos hn]

theorem getBytesOfLen_kv (m : Nat) (key : Str) (bs : Bytes) (rest : List Str)
    (hk : '=' ∉ key) (hb : ∀ b ∈ bs, b < 256) (hl : bs.length = m) :
    getBytesOfLen m key (kvLine key (bytesToHex bs) :: rest) = .ok (bs, rest) := by
  rw [getBytesOfLen, nextLine_cons key _ rest hk]
  show (match hexToBytes (bytesToHex bs) with
    | none => Except.error ProofErr.malformedInput
    | some cs => if cs.length = m then Except.ok (cs, rest)
        else Except.error ProofErr.malformedInput) =
    Except.ok (bs, rest)
  rw [hexToBytes_bytesToHex bs hb]
  show (if bs.length = m then Except.ok (bs, rest) else Except.error ProofErr.malformedInput) =
    Except.ok (bs, rest)
  rw [if_pos hl]

/-- The keys used by the artifacts under study. -/
def keyVersion : Str := ("version").toList

def keyLog : Str := ("log").toList

def keyLeaf : Str := ("leaf").toList

def keySize : Str := ("size").toList

def keyRootHash : Str := ("root_hash").toList

def keySignature : Str := ("signature").toList

def keyCosignature : Str := ("cosignature").toList

def keyLeafIndex : Str := ("leaf_index").toList

def keyTreeSize : Str := ("tree_size").toList

def keyNodeHash : Str := ("node_hash").toList

theorem splitOnChar_three (f1 f2 f3 : Str) (h1 : ' ' ∉ f1) (h2 : ' ' ∉ f2)
    (h3 : ' ' ∉ f3) :
    splitOnChar ' ' (f1 ++ ' ' :: (f2 ++ ' ' :: f3)) = [f1, f2, f3] := by
  rw [splitOnChar_append _ _ _ h1, splitOnChar_append _ _ _ h2,
    splitOnChar_of_not_mem _ _ h3]

/-! ### ASCII form of the wire types (modelled from the spec §4.4 / §6:
`size`, `root_hash`, `signature`, then repeated
`cosignature=<key_hash> <timestamp> <signature>` lines; inclusion proofs
as `leaf_index`, `tree_size`, repeated `node_hash` lines) -/

namespace types

/-- The three `key=value` lines of a signed tree head. -/
def SignedTreeHead.toLines (sth : SignedTreeHead) : List Str :=
  [kvLine keySize (decToStr sth.treeHead.size),
   kvLine keyRootHash (bytesToHex sth.treeHead.rootHash),
   kvLine keySignature (bytesToHex sth.signature)]

/-- One cosignature line: a space-separated hex triple. -/
def Cosignature.toLine (c : Cosignature) : Str :=
  kvLine keyCosignature
    (bytesToHex c.keyHash ++ ' ' :: (decToStr c.timestamp ++ ' ' :: bytesToHex c.signature))

def CosignedTreeHead.toLines (cth : CosignedTreeHead) : List Str :=
  cth.signedTreeHead.toLines ++ cth.cosignatures.map Cosignature.toLine

/-- `CosignedTreeHead.ToASCII`. -/
def CosignedTreeHead.toText (cth : CosignedTreeHead) : Str :=
  linesToText cth.toLines

def SignedTreeHead.parse (lines : List Str) :
    Except ProofErr (SignedTreeHead × List Str) :=
  match getInt keySize lines with
  | .error e => .error e
  | .ok (size, lines) =>
    match getBytesOfLen 32 keyRootHash lines with
    | .error e => .error e
    | .ok (root, lines) =>
      match getBytesOfLen 64 keySignature lines with
      | .error e => .error e
      | .ok (sig, lines) => .ok (⟨⟨size, root⟩, sig⟩, lines)

/-- Parse the value of one cosignature line. -/
def parseCosigValue (v : Str) : Option Cosignature :=
  match splitOnChar ' ' v with
  | [f1, f2, f3] =>
    match hexToBytes f1, strToDec? f2, hexToBytes f3 with
    | some kh, some ts, some sig =>
      if kh.length = 32 ∧ ts < 2 ^ 64 ∧ sig.length = 64 then some ⟨kh, ts, sig⟩
      else none
    | _, _, _ => none
  | _ => none

/-- Read successive `cosignature=` lines until a different key or EOF. -/
def readCosignatures (lines : List Str) :
    Except ProofErr (List Cosignature × List Str) :=
  match lines with
  | [] => .ok ([], [])
  | l :: rest =>
    match splitFirstEq l with
    | none => .ok ([], l :: rest)
    | some (k, v) =>
      if k = keyCosignature then
        match parseCosigValue v with
        | none => .error .malformedInput
        | some c =>
          match readCosignatures rest with
          | .error e => .error e
          | .ok (cs, rem) => .ok (c :: cs, rem)
      else .ok ([], l :: rest)

/-- `CosignedTreeHead.FromASCII`: signed tree head lines, cosignature
lines, then end of input. -/
def CosignedTreeHead.fromText (text : Str) : Except ProofErr CosignedTreeHead :=
  match textToLines text with
  | none => .error .malformedInput
  | some lines =>
    match SignedTreeHead.parse lines with
    | .error e => .error e
    | .ok (sth, rest) =>
      match readCosignatures rest with
      | .error e => .error e
      | .ok (cs, rem) =>
        if rem = [] then .ok ⟨sth, cs⟩ else .error .malformedInput

def InclusionProof.toLines (pr : InclusionProof) : List Str :=
  kvLine keyLeafIndex (decToStr pr.leafIndex) ::
  kvLine keyTreeSize (decToStr pr.treeSize) ::
  pr.path.map (fun h => kvLine keyNodeHash (bytesToHex h))

/-- `InclusionProof.ToASCII`. -/
def InclusionProof.toText (pr : InclusionProof) : Str :=
  linesToText pr.toLines

/-- Read successive `node_hash=` lines until a different key or EOF. -/
def readNodeHashes (lines : List Str) : Except ProofErr (List Hash × List Str) :=
  match lines with
  | [] => .ok ([], [])
  | l :: rest =>
    match splitFirstEq l with
    | none => .ok ([], l :: rest)
    | some (k, v) =>
      if k = keyNodeHash then
        match hexToBytes v with
        | none => .error .malformedInput
        | some h =>
          if h.length = 32 then
            match readNodeHashes rest with
            | .error e => .error e
            | .ok (hs, rem) => .ok (h :: hs, rem)
          else .error .malformedInput
      else .ok ([], l :: rest)

/-- `InclusionProof.FromASCII`. -/
def InclusionProof.fromText (text : Str) : Except ProofErr InclusionProof :=
  match textToLines text with
  | none => .error .malformedInput
  | some lines =>
    match getInt keyLeafIndex lines with
    | .error e => .error e
    | .ok (idx, lines) =>
      match getInt keyTreeSize lines with
      | .error e => .error e
      | .ok (sz, lines) =>
        match readNodeHashes lines with
        | .error e => .error e
        | .ok (path, rem) =>
          if rem = [] then .ok ⟨idx, sz, path⟩ else .error .malformedInput

end types

/-- The `leaf=<short_checksum> <key_hash> <signature>` line of a proof
bundle (`ShortLeaf.ToASCII` in `proof.go`). -/
def ShortLeaf.toLine (l : ShortLeaf) : Str :=
  kvLine keyLeaf
    (bytesToHex l.shortChecksum ++ ' ' :: (bytesToHex l.keyHash ++ ' ' :: bytesToHex l.signature))

/-- `ShortLeaf.Parse` from `proof.go`: `GetValues("leaf", 3)`, then short
checksum, key hash and signature in that order. -/
def ShortLeaf.parse (lines : List Str) : Except ProofErr (ShortLeaf × List Str) :=
  match getValues keyLeaf 3 lines with
  | .error e => .error e
  | .ok (fields, rest) =>
    match fields with
    | [f1, f2, f3] =>
      match hexToBytes f1, hexToBytes f2, hexToBytes f3 with
      | some sc, some kh, some sig =>
        if sc.length = 2 ∧ kh.length = 32 ∧ sig.length = 64 then
          .ok (⟨sc, sig, kh⟩, rest)
        else .error .malformedInput
      | _, _, _ => .error .malformedInput
    | _ => .error .malformedInput

/-- The first block of a proof bundle: version, log, leaf lines. -/
def SigsumProof.headerLines (sp : SigsumProof) : List Str :=
  [kvLine keyVersion (decToStr 0), kvLine keyLog (bytesToHex sp.logKeyHash),
   sp.leaf.toLine]

/-- `SigsumProof.ToASCII` from `proof.go`: header block, blank line,
cosigned-tree-head block, and (only when the tree size exceeds 1) a blank
line and the inclusion-proof block. -/
def SigsumProof.toAscii (sp : SigsumProof) : Str :=
  linesToText sp.headerLines ++
  '\n' :: (types.CosignedTreeHead.toText sp.treeHead ++
    (if sp.treeHead.size ≤ 1 then []
     else '\n' :: linesToText sp.inclusion.toLines))

/-- The re-extension of `proof.go`: after splitting on blank lines, a final
newline is reapplied to every part but the last. -/
def reAppendNL : List Str → List Str
  | [] => []
  | [p] => [p]
  | p :: rest => (p ++ ['\n']) :: reAppendNL rest

/-- The first block of `SigsumProof.FromASCII`: version line, log line,
leaf line, end of block. -/
def SigsumProof.parseHeader (p0 : Str) : Except ProofErr (Hash × ShortLeaf) :=
  match textToLines p0 with
  | none => .error .malformedInput
  | some lines =>
    match getInt keyVersion lines with
    | .error e => .error e
    | .ok (version, lines) =>
      if version ≠ 0 then .error .unexpectedVersion
      else
        match getBytesOfLen 32 keyLog lines with
        | .error e => .error e
        | .ok (logHash, lines) =>
          match ShortLeaf.parse lines with
          | .error e => .error e
          | .ok (leaf, lines) =>
            if lines ≠ [] then .error .malformedInput
            else .ok (logHash, leaf)

/-- The tail of `SigsumProof.FromASCII` after the blank-line split: header
block, cosigned-tree-head block, the empty-tree and part-count checks, and
the optional inclusion block. -/
def SigsumProof.fromParts (p0 p1 : Str) (restParts : List Str) :
    Except ProofErr SigsumProof :=
  match SigsumProof.parseHeader p0 with
  | .error e => .error e
  | .ok (logHash, leaf) =>
    match types.CosignedTreeHead.fromText p1 with
    | .error e => .error e
    | .ok cth =>
      if cth.size = 0 then .error .emptyTree
      else if cth.size = 1 then
        if restParts ≠ [] then .error .tooManyParts
        else .ok ⟨logHash, leaf, cth, ⟨0, 0, []⟩⟩
      else
        match restParts with
        | [p2] =>
          match types.InclusionProof.fromText p2 with
          | .error e => .error e
          | .ok incl => .ok ⟨logHash, leaf, cth, incl⟩
        | _ => .error .tooFewParts

/-- `SigsumProof.FromASCII` from `proof.go`. -/
def SigsumProof.fromAscii (text : Str) : Except ProofErr SigsumProof :=
  match reAppendNL (splitDoubleNL text) with
  | p0 :: p1 :: restParts => SigsumProof.fromParts p0 p1 restParts
  | _ => .error .tooFewParts

/-! ### Well-formedness: the Go typing constraints (fixed-width byte arrays
and `uint64` fields) together with the data-model invariant of §3 that the
inclusion proof is empty iff the tree size is 1. -/

def WfCosignature (c : types.Cosignature) : Prop :=
  isBytes 32 c.keyHash ∧ c.timestamp < 2 ^ 64 ∧ isBytes 64 c.signature

def WfSignedTreeHead (sth : types.SignedTreeHead) : Prop :=
  sth.treeHead.size < 2 ^ 64 ∧ isBytes 32 sth.treeHead.rootHash ∧
  isBytes 64 sth.signature

def WfCosignedTreeHead (cth : types.CosignedTreeHead) : Prop :=
  WfSignedTreeHead cth.signedTreeHead ∧ ∀ c ∈ cth.cosignatures, WfCosignature c

def WfInclusionProof (pr : types.InclusionProof) : Prop :=
  pr.leafIndex < 2 ^ 64 ∧ pr.treeSize < 2 ^ 64 ∧ ∀ h ∈ pr.path, isBytes 32 h

def WfSigsumProof (sp : SigsumProof) : Prop :=
  isBytes 32 sp.logKeyHash ∧ isBytes 2 sp.leaf.shortChecksum ∧
  isBytes 32 sp.leaf.keyHash ∧ isBytes 64 sp.leaf.signature ∧
  WfCosignedTreeHead sp.treeHead ∧ WfInclusionProof sp.inclusion ∧
  (sp.treeHead.size = 1 → sp.inclusion = ⟨0, 0, []⟩)

/-! ### Goodness of emitted lines and block splitting -/

theorem nl_not_mem_hex (bs : Bytes) (hb : ∀ b ∈ bs, b < 256) :
    '\n' ∉ bytesToHex bs :=
  fun hc => (mem_bytesToHex_plain bs hb _ hc).1 rfl

theorem space_not_mem_hex (bs : Bytes) (hb : ∀ b ∈ bs, b < 256) :
    ' ' ∉ bytesToHex bs :=
  fun hc => (mem_bytesToHex_plain bs hb _ hc).2.2 rfl

theorem nl_not_mem_dec (n : Nat) : '\n' ∉ decToStr n :=
  fun hc => (mem_decToStr_plain n _ hc).1 rfl

theorem space_not_mem_dec (n : Nat) : ' ' ∉ decToStr n :=
  fun hc => (mem_decToStr_plain n _ hc).2.2 rfl

theorem nl_not_mem_kvLine (key v : Str) (hk : '\n' ∉ key) (hv : '\n' ∉ v) :
    '\n' ∉ kvLine key v := by
  rw [kvLine]
  intro hm
  rcases List.mem_append.mp hm with hm | hm
  · exact hk hm
  · rcases List.mem_cons.mp hm with hm | hm
    · cases hm
    · exact hv hm

theorem kvLine_ne_nil (key v : Str) : kvLine key v ≠ [] := by
  rw [kvLine]
  cases key <;> simp

/-- A list of lines each of which is non-empty and newline-free. -/
def GoodLines (ls : List Str) : Prop := ∀ l ∈ ls, l ≠ [] ∧ '\n' ∉ l

theorem hasDNL_linesToText (ls : List Str) (h : GoodLines ls) :
    hasDNL (linesToText ls) = false := by
  induction ls with
  | nil => rfl
  | cons l ls' ih =>
    rw [linesToText, hasDNL_append_of_not_mem l _ (h l (List.mem_cons_self l ls')).2]
    cases hlt : linesToText ls' with
    | nil => rfl
    | cons d r =>
      rw [hasDNL_cons_cons]
      have hd : ¬ d = '\n' := by
        cases ls' with
        | nil => rw [linesToText] at hlt; cases hlt
        | cons l2 tail =>
          rw [linesToText] at hlt
          have hl2 := h l2 (by simp)
          cases hl2e : l2 with
          | nil => exact absurd hl2e hl2.1
          | cons c0 cr =>
            rw [hl2e, List.cons_append] at hlt
            injection hlt with h1 h2
            rw [← h1]
            intro hc
            apply hl2.2
            rw [hl2e, hc]
            exact List.mem_cons_self _ _
      have ihres := ih (fun x hx => h x (List.mem_cons_of_mem l hx))
      rw [hlt] at ihres
      simp [hd, ihres]

theorem linesToText_concat (ls : List Str) (h : ls ≠ []) :
    ∃ a, linesToText ls = a ++ ['\n'] := by
  induction ls with
  | nil => exact absurd rfl h
  | cons l ls' ih =>
    cases ls' with
    | nil => exact ⟨l, by rw [linesToText, linesToText]⟩
    | cons l2 tail =>
      obtain ⟨a, ha⟩ := ih (by simp)
      refine ⟨l ++ '\n' :: a, ?_⟩
      rw [linesToText, ha]
      simp

theorem linesToText_append (a b : List Str) :
    linesToText (a ++ b) = linesToText a ++ linesToText b := by
  induction a with
  | nil => rfl
  | cons l a' ih =>
    rw [List.cons_append, linesToText, linesToText, ih]
    simp

/-- Splitting a two-block text on blank lines and reapplying the final
newlines recovers exactly the two blocks. -/
theorem reAppend_split_two (ls0 : List Str) (b1 : Str) (h0 : GoodLines ls0)
    (hne : ls0 ≠ []) (h1 : hasDNL b1 = false) :
    reAppendNL (splitDoubleNL (linesToText ls0 ++ '\n' :: b1)) =
      [linesToText ls0, b1] := by
  obtain ⟨a, ha⟩ := linesToText_concat ls0 hne
  have hdnl : hasDNL (a ++ ['\n']) = false := ha ▸ hasDNL_linesToText ls0 h0
  rw [ha]
  have hre : a ++ ['\n'] ++ '\n' :: b1 = a ++ '\n' :: '\n' :: b1 := by simp
  rw [hre, splitDoubleNL_append a b1 hdnl, splitDoubleNL_of_no_dnl b1 h1]
  show (a ++ ['\n']) :: reAppendNL [b1] = [a ++ ['\n'], b1]
  rfl

/-- Same for a three-block text. -/
theorem reAppend_split_three (ls0 ls1 : List Str) (b2 : Str) (h0 : GoodLines ls0)
    (hne0 : ls0 ≠ []) (h1 : GoodLines ls1) (hne1 : ls1 ≠ [])
    (h2 : hasDNL b2 = false) :
    reAppendNL (splitDoubleNL
      (linesToText ls0 ++ '\n' :: (linesToText ls1 ++ '\n' :: b2))) =
      [linesToText ls0, linesToText ls1, b2] := by
  obtain ⟨a0, ha0⟩ := linesToText_concat ls0 hne0
  obtain ⟨a1, ha1⟩ := linesToText_concat ls1 hne1
  have hd0 : hasDNL (a0 ++ ['\n']) = false := ha0 ▸ hasDNL_linesToText ls0 h0
  have hd1 : hasDNL (a1 ++ ['\n']) = false := ha1 ▸ hasDNL_linesToText ls1 h1
  rw [ha0, ha1]
  have hre : a0 ++ ['\n'] ++ '\n' :: (a1 ++ ['\n'] ++ '\n' :: b2) =
      a0 ++ '\n' :: '\n' :: (a1 ++ '\n' :: '\n' :: b2) := by simp
  rw [hre, splitDoubleNL_append a0 _ hd0, splitDoubleNL_append a1 b2 hd1,
    splitDoubleNL_of_no_dnl b2 h2]
  rfl

theorem nl_not_mem_triple (f1 f2 f3 : Str) (h1 : '\n' ∉ f1) (h2 : '\n' ∉ f2)
    (h3 : '\n' ∉ f3) : '\n' ∉ f1 ++ ' ' :: (f2 ++ ' ' :: f3) := by
  intro hm
  rcases List.mem_append.mp hm with hm | hm
  · exact h1 hm
  · rcases List.mem_cons.mp hm with hm | hm
    · cases hm
    · rcases List.mem_append.mp hm with hm | hm
      · exact h2 hm
      · rcases List.mem_cons.mp hm with hm | hm
        · cases hm
        · exact h3 hm

theorem goodLines_sth (sth : types.SignedTreeHead) (h : WfSignedTreeHead sth) :
    GoodLines (types.SignedTreeHead.toLines sth) := by
  intro l hl
  rw [types.SignedTreeHead.toLines] at hl
  rcases List.mem_cons.mp hl with he | he
  · subst he
    exact ⟨kvLine_ne_nil _ _, nl_not_mem_kvLine _ _ (by decide) (nl_not_mem_dec _)⟩
  · rcases List.mem_cons.mp he with he2 | he2
    · subst he2
      exact ⟨kvLine_ne_nil _ _, nl_not_mem_kvLine _ _ (by decide) (nl_not_mem_hex _ h.2.1.2)⟩
    · rcases List.mem_cons.mp he2 with he3 | he3
      · subst he3
        exact ⟨kvLine_ne_nil _ _,
          nl_not_mem_kvLine _ _ (by decide) (nl_not_mem_hex _ h.2.2.2)⟩
      · cases he3

theorem goodLines_cth (cth : types.CosignedTreeHead) (h : WfCosignedTreeHead cth) :
    GoodLines (types.CosignedTreeHead.toLines cth) := by
  intro l hl
  rw [types.CosignedTreeHead.toLines] at hl
  rcases List.mem_append.mp hl with he | he
  · exact goodLines_sth _ h.1 l he
  · obtain ⟨c, hc, rfl⟩ := List.mem_map.mp he
    have hcw := h.2 c hc
    refine ⟨kvLine_ne_nil _ _, nl_not_mem_kvLine _ _ (by decide) ?_⟩
    exact nl_not_mem_triple _ _ _ (nl_not_mem_hex _ hcw.1.2) (nl_not_mem_dec _)
      (nl_not_mem_hex _ hcw.2.2.2)

theorem goodLines_incl (pr : types.InclusionProof) (h : WfInclusionProof pr) :
    GoodLines (types.InclusionProof.toLines pr) := by
  intro l hl
  rw [types.InclusionProof.toLines] at hl
  rcases List.mem_cons.mp hl with he | he
  · subst he
    exact ⟨kvLine_ne_nil _ _, nl_not_mem_kvLine _ _ (by decide) (nl_not_mem_dec _)⟩
  · rcases List.mem_cons.mp he with he2 | he2
    · subst he2
      exact ⟨kvLine_ne_nil _ _, nl_not_mem_kvLine _ _ (by decide) (nl_not_mem_dec _)⟩
    · obtain ⟨x, hx, rfl⟩ := List.mem_map.mp he2
      exact ⟨kvLine_ne_nil _ _,
        nl_not_mem_kvLine _ _ (by decide) (nl_not_mem_hex _ (h.2.2 x hx).2)⟩

theorem signedTreeHead_parse_toLines (sth : types.SignedTreeHead) (rest : List Str)
    (h : WfSignedTreeHead sth) :
    types.SignedTreeHead.parse (types.SignedTreeHead.toLines sth ++ rest) =
      .ok (sth, rest) := by
  obtain ⟨h1, h2, h3⟩ := h
  simp only [types.SignedTreeHead.toLines, types.SignedTreeHead.parse,
    List.cons_append, List.nil_append,
    getInt_kv keySize _ _ (by decide) h1,
    getBytesOfLen_kv 32 keyRootHash _ _ (by decide) h2.2 h2.1,
    getBytesOfLen_kv 64 keySignature _ _ (by decide) h3.2 h3.1]

theorem parseCosigValue_val (c : types.Cosignature) (h : WfCosignature c) :
    types.parseCosigValue
      (bytesToHex c.keyHash ++ ' ' :: (decToStr c.timestamp ++ ' ' :: bytesToHex c.signature)) =
      some c := by
  obtain ⟨h1, h2, h3⟩ := h
  simp only [types.parseCosigValue,
    splitOnChar_three _ _ _ (space_not_mem_hex _ h1.2) (space_not_mem_dec _)
      (space_not_mem_hex _ h3.2),
    hexToBytes_bytesToHex _ h1.2, strToDec_decToStr, hexToBytes_bytesToHex _ h3.2]
  rw [if_pos ⟨h1.1, h2, h3.1⟩]

theorem readCosignatures_map (cs : List types.Cosignature)
    (h : ∀ c ∈ cs, WfCosignature c) :
    types.readCosignatures (cs.map types.Cosignature.toLine) = .ok (cs, []) := by
  induction cs with
  | nil => rfl
  | cons c cs' ih =>
    simp only [List.map_cons, types.readCosignatures, types.Cosignature.toLine, kvLine,
      splitFirstEq_key keyCosignature _ (by decide), eq_self_iff_true, if_true,
      parseCosigValue_val c (h c (List.mem_cons_self c cs')),
      ih (fun x hx => h x (List.mem_cons_of_mem c hx))]

theorem readNodeHashes_map (hs : List Hash) (h : ∀ x ∈ hs, isBytes 32 x) :
    types.readNodeHashes (hs.map (fun x => kvLine keyNodeHash (bytesToHex x))) =
      .ok (hs, []) := by
  induction hs with
  | nil => rfl
  | cons x hs' ih =>
    have hx := h x (List.mem_cons_self x hs')
    have ih' := ih (fun y hy => h y (List.mem_cons_of_mem x hy))
    simp only [kvLine] at ih' ⊢
    simp only [List.map_cons, types.readNodeHashes,
      splitFirstEq_key keyNodeHash _ (by decide), eq_self_iff_true, if_true,
      hexToBytes_bytesToHex _ hx.2, hx.1, ih']

theorem cth_fromText_toText (cth : types.CosignedTreeHead)
    (h : WfCosignedTreeHead cth) :
    types.CosignedTreeHead.fromText (types.CosignedTreeHead.toText cth) = .ok cth := by
  have hnl : ∀ l ∈ (types.SignedTreeHead.toLines cth.signedTreeHead ++
      cth.cosignatures.map types.Cosignature.toLine), '\n' ∉ l := by
    have hg := goodLines_cth cth h
    rw [types.CosignedTreeHead.toLines] at hg
    exact fun l hl => (hg l hl).2
  simp only [types.CosignedTreeHead.fromText, types.CosignedTreeHead.toText,
    types.CosignedTreeHead.toLines, textToLines_linesToText _ hnl,
    signedTreeHead_parse_toLines _ _ h.1, readCosignatures_map _ h.2,
    eq_self_iff_true, if_true]

theorem incl_fromText_toText (pr : types.InclusionProof) (h : WfInclusionProof pr) :
    types.InclusionProof.fromText (types.InclusionProof.toText pr) = .ok pr := by
  have hnl : ∀ l ∈ (kvLine keyLeafIndex (decToStr pr.leafIndex) ::
      kvLine keyTreeSize (decToStr pr.treeSize) ::
      pr.path.map (fun x => kvLine keyNodeHash (bytesToHex x))), '\n' ∉ l := by
    have hg := goodLines_incl pr h
    rw [types.InclusionProof.toLines] at hg
    exact fun l hl => (hg l hl).2
  simp only [types.InclusionProof.fromText, types.InclusionProof.toText,
    types.InclusionProof.toLines, textToLines_linesToText _ hnl,
    getInt_kv keyLeafIndex _ _ (by decide) h.1,
    getInt_kv keyTreeSize _ _ (by decide) h.2.1,
    readNodeHashes_map _ h.2.2, eq_self_iff_true, if_true]

theorem shortLeaf_parse_toLine (l : ShortLeaf) (rest : List Str)
    (h1 : isBytes 2 l.shortChecksum) (h2 : isBytes 32 l.keyHash)
    (h3 : isBytes 64 l.signature) :
    ShortLeaf.parse (ShortLeaf.toLine l :: rest) = .ok (l, rest) := by
  have hfields : splitOnChar ' '
      (bytesToHex l.shortChecksum ++ ' ' :: (bytesToHex l.keyHash ++ ' ' :: bytesToHex l.signature)) =
      [bytesToHex l.shortChecksum, bytesToHex l.keyHash, bytesToHex l.signature] :=
    splitOnChar_three _ _ _ (space_not_mem_hex _ h1.2) (space_not_mem_hex _ h2.2)
      (space_not_mem_hex _ h3.2)
  simp only [ShortLeaf.parse, getValues, ShortLeaf.toLine,
    nextLine_cons keyLeaf _ rest (by decide), hfields, List.length_cons, List.length_nil,
    hexToBytes_bytesToHex _ h1.2, hexToBytes_bytesToHex _ h2.2,
    hexToBytes_bytesToHex _ h3.2]
  norm_num
  simp only [hexToBytes_bytesToHex _ h1.2, hexToBytes_bytesToHex _ h2.2,
    hexToBytes_bytesToHex _ h3.2]
  rw [if_pos ⟨h1.1, h2.1, h3.1⟩]

theorem goodLines_header (sp : SigsumProof) (hwf : WfSigsumProof sp) :
    GoodLines sp.headerLines := by
  obtain ⟨hlog, hsc, hkh, hsig, -, -, -⟩ := hwf
  intro l hl
  rw [SigsumProof.headerLines] at hl
  rcases List.mem_cons.mp hl with he | he
  · subst he
    exact ⟨kvLine_ne_nil _ _, nl_not_mem_kvLine _ _ (by decide) (nl_not_mem_dec _)⟩
  · rcases List.mem_cons.mp he with he2 | he2
    · subst he2
      exact ⟨kvLine_ne_nil _ _, nl_not_mem_kvLine _ _ (by decide) (nl_not_mem_hex _ hlog.2)⟩
    · rcases List.mem_cons.mp he2 with he3 | he3
      · subst he3
        refine ⟨kvLine_ne_nil _ _, nl_not_mem_kvLine _ _ (by decide) ?_⟩
        exact nl_not_mem_triple _ _ _ (nl_not_mem_hex _ hsc.2) (nl_not_mem_hex _ hkh.2)
          (nl_not_mem_hex _ hsig.2)
      · cases he3

theorem parseHeader_headerLines (sp : SigsumProof) (hwf : WfSigsumProof sp) :
    SigsumProof.parseHeader (linesToText sp.headerLines) = .ok (sp.logKeyHash, sp.leaf) := by
  have hnl : ∀ l ∈ [kvLine keyVersion (decToStr 0), kvLine keyLog (bytesToHex sp.logKeyHash),
      ShortLeaf.toLine sp.leaf], '\n' ∉ l := by
    have hg := goodLines_header sp hwf
    rw [SigsumProof.headerLines] at hg
    exact fun l hl => (hg l hl).2
  obtain ⟨hlog, hsc, hkh, hsig, -, -, -⟩ := hwf
  simp only [SigsumProof.parseHeader, SigsumProof.headerLines,
    textToLines_linesToText _ hnl,
    getInt_kv keyVersion 0 _ (by decide) (by norm_num),
    getBytesOfLen_kv 32 keyLog _ _ (by decide) hlog.2 hlog.1,
    shortLeaf_parse_toLine sp.leaf [] hsc hkh hsig]
  norm_num

theorem reAppendNL_length (ps : List Str) : (reAppendNL ps).length = ps.length := by
  induction ps with
  | nil => rfl
  | cons p rest ih =>
    cases rest with
    | nil => rfl
    | cons q rest' =>
      rw [reAppendNL]
      · simp only [List.length_cons] at ih ⊢
        omega
      · simp

/-- The block decomposition of an emitted proof bundle. -/
theorem toAscii_parts (sp : SigsumProof) (hwf : WfSigsumProof sp) :
    (sp.treeHead.size ≤ 1 →
      reAppendNL (splitDoubleNL (SigsumProof.toAscii sp)) =
        [linesToText sp.headerLines, types.CosignedTreeHead.toText sp.treeHead]) ∧
    (1 < sp.treeHead.size →
      reAppendNL (splitDoubleNL (SigsumProof.toAscii sp)) =
        [linesToText sp.headerLines, types.CosignedTreeHead.toText sp.treeHead,
         linesToText sp.inclusion.toLines]) := by
  have hgh : GoodLines sp.headerLines := goodLines_header sp hwf
  have hgc : GoodLines (types.CosignedTreeHead.toLines sp.treeHead) :=
    goodLines_cth _ hwf.2.2.2.2.1
  have hhne : sp.headerLines ≠ [] := by rw [SigsumProof.headerLines]; simp
  have hcne : types.CosignedTreeHead.toLines sp.treeHead ≠ [] := by
    rw [types.CosignedTreeHead.toLines, types.SignedTreeHead.toLines]
    simp
  constructor
  · intro hle
    rw [SigsumProof.toAscii, if_pos hle, List.append_nil]
    exact reAppend_split_two _ _ hgh hhne
      (hasDNL_linesToText _ hgc)
  · intro hgt
    rw [SigsumProof.toAscii, if_neg (by omega)]
    rw [types.CosignedTreeHead.toText]
    exact reAppend_split_three _ _ _ hgh hhne hgc hcne
      (hasDNL_linesToText _ (goodLines_incl _ hwf.2.2.2.2.2.1))

/-- Unfolding of `fromAscii` once the block decomposition is known. -/
theorem fromAscii_parts (text p0 p1 : Str) (restParts : List Str)
    (h : reAppendNL (splitDoubleNL text) = p0 :: p1 :: restParts) :
    SigsumProof.fromAscii text = SigsumProof.fromParts p0 p1 restParts := by
  unfold SigsumProof.fromAscii
  simp only [h]

/-- C5: emit-then-parse is the identity for every well-formed proof bundle
with tree size at least 1, and the emitted text has an inclusion-proof
block (a third blank-line-separated part) iff the size exceeds 1.
Byte-identity of parse-then-emit on canonical texts follows: a canonical
text is `toAscii sp` for some such bundle, parsing it returns exactly `sp`,
and emitting `sp` again reproduces the same text. -/
theorem sigsumProof_roundtrip (sp : SigsumProof) (hwf : WfSigsumProof sp)
    (hsz : 1 ≤ sp.treeHead.size) :
    SigsumProof.fromAscii (SigsumProof.toAscii sp) = .ok sp ∧
    (splitDoubleNL (SigsumProof.toAscii sp)).length =
      (if sp.treeHead.size = 1 then 2 else 3) := by
  have hcth := cth_fromText_toText sp.treeHead hwf.2.2.2.2.1
  have hhdr := parseHeader_headerLines sp hwf
  by_cases h1 : sp.treeHead.size = 1
  · have hparts := (toAscii_parts sp hwf).1 (by omega)
    constructor
    · rw [fromAscii_parts _ _ _ _ hparts]
      simp only [SigsumProof.fromParts, hhdr, hcth, h1]
      norm_num
      rw [← hwf.2.2.2.2.2.2 h1]
    · have hlen : (reAppendNL (splitDoubleNL (SigsumProof.toAscii sp))).length = 2 := by
        rw [hparts]; rfl
      rw [reAppendNL_length] at hlen
      rw [hlen, if_pos h1]
  · have hs2 : 1 < sp.treeHead.size := by omega
    have hparts := (toAscii_parts sp hwf).2 hs2
    have hincl : types.InclusionProof.fromText (linesToText sp.inclusion.toLines) =
        .ok sp.inclusion := by
      have := incl_fromText_toText sp.inclusion hwf.2.2.2.2.2.1
      rw [types.InclusionProof.toText] at this
      exact this
    constructor
    · rw [fromAscii_parts _ _ _ _ hparts]
      simp only [SigsumProof.fromParts, hhdr, hcth, hincl]
      rw [if_neg (by omega : ¬ sp.treeHead.size = 0), if_neg h1]
    · have hlen : (reAppendNL (splitDoubleNL (SigsumProof.toAscii sp))).length = 3 := by
        rw [hparts]; rfl
      rw [reAppendNL_length] at hlen
      rw [hlen, if_neg h1]

/-- Witness for C5 at a size-1 bundle with no cosignatures. -/
theorem sigsumProof_roundtrip_witness :
    SigsumProof.fromAscii (SigsumProof.toAscii
      ⟨List.replicate 32 0, ⟨List.replicate 2 0, List.replicate 64 0, List.replicate 32 0⟩,
       ⟨⟨⟨1, List.replicate 32 0⟩, List.replicate 64 0⟩, []⟩, ⟨0, 0, []⟩⟩) =
      .ok ⟨List.replicate 32 0, ⟨List.replicate 2 0, List.replicate 64 0, List.replicate 32 0⟩,
       ⟨⟨⟨1, List.replicate 32 0⟩, List.replicate 64 0⟩, []⟩, ⟨0, 0, []⟩⟩ :=
  (sigsumProof_roundtrip _
    ⟨by simp [isBytes], by simp [isBytes], by simp [isBytes], by simp [isBytes],
     ⟨⟨by norm_num, by simp [isBytes], by simp [isBytes]⟩, by simp⟩,
     ⟨by norm_num, by norm_num, by simp⟩, fun _ => rfl⟩ (by decide)).1

/-- C10: `FromASCII` rejects every input whose cosigned-tree-head block
parses with tree size 0, while `ToASCII` happily emits a well-formed
two-block text for a size-0 bundle; the emit-then-parse round trip
therefore fails for size 0, returning the empty-tree error. -/
theorem sigsumProof_sizeZero :
    (∀ (text p0 p1 : Str) (restParts : List Str) (hdr : Hash × ShortLeaf)
        (cth : types.CosignedTreeHead),
      reAppendNL (splitDoubleNL text) = p0 :: p1 :: restParts →
      SigsumProof.parseHeader p0 = .ok hdr →
      types.CosignedTreeHead.fromText p1 = .ok cth →
      cth.size = 0 →
      SigsumProof.fromAscii text = .error .emptyTree) ∧
    (∀ sp : SigsumProof, WfSigsumProof sp → sp.treeHead.size = 0 →
      SigsumProof.fromAscii (SigsumProof.toAscii sp) = .error .emptyTree ∧
      (splitDoubleNL (SigsumProof.toAscii sp)).length = 2) := by
  have hmain : ∀ (text p0 p1 : Str) (restParts : List Str) (hdr : Hash × ShortLeaf)
      (cth : types.CosignedTreeHead),
      reAppendNL (splitDoubleNL text) = p0 :: p1 :: restParts →
      SigsumProof.parseHeader p0 = .ok hdr →
      types.CosignedTreeHead.fromText p1 = .ok cth →
      cth.size = 0 →
      SigsumProof.fromAscii text = .error .emptyTree := by
    intro text p0 p1 restParts hdr cth hsplit hhdr hcth hsz
    obtain ⟨lh, lf⟩ := hdr
    rw [fromAscii_parts _ _ _ _ hsplit]
    simp only [SigsumProof.fromParts, hhdr, hcth, hsz, if_pos]
  refine ⟨hmain, ?_⟩
  intro sp hwf hsz
  have hparts := (toAscii_parts sp hwf).1 (by omega)
  have hcth := cth_fromText_toText sp.treeHead hwf.2.2.2.2.1
  have hhdr := parseHeader_headerLines sp hwf
  constructor
  · exact hmain _ _ _ _ _ _ hparts hhdr hcth hsz
  · have hlen : (reAppendNL (splitDoubleNL (SigsumProof.toAscii sp))).length = 2 := by
      rw [hparts]; rfl
    rw [reAppendNL_length] at hlen
    exact hlen

/-- Witness for C10 at a size-0 bundle. -/
theorem sigsumProof_sizeZero_witness :
    SigsumProof.fromAscii (SigsumProof.toAscii
      ⟨List.replicate 32 0, ⟨List.replicate 2 0, List.replicate 64 0, List.replicate 32 0⟩,
       ⟨⟨⟨0, List.replicate 32 0⟩, List.replicate 64 0⟩, []⟩, ⟨0, 0, []⟩⟩) =
      .error .emptyTree :=
  (sigsumProof_sizeZero.2
    ⟨List.replicate 32 0, ⟨List.replicate 2 0, List.replicate 64 0, List.replicate 32 0⟩,
     ⟨⟨⟨0, List.replicate 32 0⟩, List.replicate 64 0⟩, []⟩, ⟨0, 0, []⟩⟩
    ⟨by simp [isBytes], by simp [isBytes], by simp [isBytes], by simp [isBytes],
     ⟨⟨by norm_num, by simp [isBytes], by simp [isBytes]⟩, by simp⟩,
     ⟨by norm_num, by norm_num, by simp⟩, fun hc => by cases hc⟩ rfl).1

/-! ### Inversion of the parser: what accepted inputs must look like -/

/-- Inverse of `splitOnChar`: rejoin with the separator. -/
def joinWith (c : Char) : List Str → Str
  | [] => []
  | [p] => p
  | p :: rest => p ++ c :: joinWith c rest

theorem joinWith_splitOnChar (c : Char) (s : Str) :
    joinWith c (splitOnChar c s) = s := by
  induction s with
  | nil => rfl
  | cons x r ih =>
    rw [splitOnChar]
    by_cases hx : x = c
    · rw [if_pos hx]
      cases hr : splitOnChar c r with
      | nil => exact absurd hr (splitOnChar_ne_nil c r)
      | cons p ps =>
        rw [hr] at ih
        show [] ++ c :: joinWith c (p :: ps) = x :: r
        rw [List.nil_append, ih, hx]
    · rw [if_neg hx]
      cases hr : splitOnChar c r with
      | nil => exact absurd hr (splitOnChar_ne_nil c r)
      | cons p ps =>
        rw [hr] at ih
        cases ps with
        | nil =>
          show x :: p = x :: r
          rw [show joinWith c [p] = p from rfl] at ih
          rw [ih]
        | cons q qs =>
          show (x :: p) ++ c :: joinWith c (q :: qs) = x :: r
          rw [List.cons_append, ← ih]
          rfl

theorem nextLine_inv (key : Str) (lines : List Str) (v : Str) (rest : List Str)
    (h : nextLine key lines = .ok (v, rest)) : lines = kvLine key v :: rest := by
  cases lines with
  | nil => rw [nextLine] at h; cases h
  | cons l rest' =>
    rw [nextLine] at h
    cases hse : splitFirstEq l with
    | none => rw [hse] at h; exact absurd h (by simp)
    | some kv =>
      obtain ⟨k, v'⟩ := kv
      rw [hse] at h
      have h' : (if k = key then Except.ok (v', rest')
          else Except.error ProofErr.malformedInput) = Except.ok (v, rest) := h
      by_cases hk : k = key
      · rw [if_pos hk] at h'
        injection h' with h'
        injection h' with h1 h2
        obtain ⟨hl, -⟩ := splitFirstEq_inv l k v' hse
        subst hk
        rw [hl, h1, h2]
        rfl
      · rw [if_neg hk] at h'
        cases h'

theorem getInt_inv (key : Str) (lines : List Str) (n : Nat) (rest : List Str)
    (h : getInt key lines = .ok (n, rest)) :
    ∃ v, lines = kvLine key v :: rest ∧ strToDec? v = some n := by
  rw [getInt] at h
  cases hnl : nextLine key lines with
  | error e => rw [hnl] at h; exact absurd h (by simp)
  | ok vr =>
    obtain ⟨v, rest'⟩ := vr
    rw [hnl] at h
    have h' : (match strToDec? v with
        | none => Except.error ProofErr.malformedInput
        | some m => if m < 2 ^ 64 then Except.ok (m, rest')
            else Except.error ProofErr.malformedInput) = Except.ok (n, rest) := h
    cases hsd : strToDec? v with
    | none => rw [hsd] at h'; cases h'
    | some m =>
      rw [hsd] at h'
      have h'' : (if m < 2 ^ 64 then Except.ok (m, rest')
          else Except.error ProofErr.malformedInput) = Except.ok (n, rest) := h'
      by_cases hm : m < 2 ^ 64
      · rw [if_pos hm] at h''
        injection h'' with h''
        injection h'' with h1 h2
        refine ⟨v, ?_, ?_⟩
        · rw [← h2]
          exact nextLine_inv key lines v rest' hnl
        · rw [hsd, h1]
      · rw [if_neg hm] at h''
        cases h''

theorem getBytesOfLen_inv (m : Nat) (key : Str) (lines : List Str) (bs : Bytes)
    (rest : List Str) (h : getBytesOfLen m key lines = .ok (bs, rest)) :
    ∃ v, lines = kvLine key v :: rest ∧ hexToBytes v = some bs := by
  rw [getBytesOfLen] at h
  cases hnl : nextLine key lines with
  | error e => rw [hnl] at h; exact absurd h (by simp)
  | ok vr =>
    obtain ⟨v, rest'⟩ := vr
    rw [hnl] at h
    have h' : (match hexToBytes v with
        | none => Except.error ProofErr.malformedInput
        | some cs => if cs.length = m then Except.ok (cs, rest')
            else Except.error ProofErr.malformedInput) = Except.ok (bs, rest) := h
    cases hhb : hexToBytes v with
    | none => rw [hhb] at h'; cases h'
    | some cs =>
      rw [hhb] at h'
      have h'' : (if cs.length = m then Except.ok (cs, rest')
          else Except.error ProofErr.malformedInput) = Except.ok (bs, rest) := h'
      by_cases hc : cs.length = m
      · rw [if_pos hc] at h''
        injection h'' with h''
        injection h'' with h1 h2
        refine ⟨v, ?_, ?_⟩
        · rw [← h2]
          exact nextLine_inv key lines v rest' hnl
        · rw [hhb, h1]
      · rw [if_neg hc] at h''
        cases h''

theorem signedTreeHead_parse_inv (lines : List Str) (sth : types.SignedTreeHead)
    (rest : List Str) (h : types.SignedTreeHead.parse lines = .ok (sth, rest)) :
    ∃ v1 v2 v3, lines =
      kvLine keySize v1 :: kvLine keyRootHash v2 :: kvLine keySignature v3 :: rest := by
  rw [types.SignedTreeHead.parse] at h
  cases h1 : getInt keySize lines with
  | error e => rw [h1] at h; exact absurd h (by simp)
  | ok p1 =>
    obtain ⟨size, lines1⟩ := p1
    rw [h1] at h
    have h' : (match getBytesOfLen 32 keyRootHash lines1 with
        | .error e => Except.error e
        | .ok (root, lines) =>
          match getBytesOfLen 64 keySignature lines with
          | .error e => Except.error e
          | .ok (sig, lines) => Except.ok (⟨⟨size, root⟩, sig⟩, lines)) =
        Except.ok (sth, rest) := h
    cases h2 : getBytesOfLen 32 keyRootHash lines1 with
    | error e => rw [h2] at h'; cases h'
    | ok p2 =>
      obtain ⟨root, lines2⟩ := p2
      rw [h2] at h'
      have h'' : (match getBytesOfLen 64 keySignature lines2 with
          | .error e => Except.error e
          | .ok (sig, lines) => Except.ok (⟨⟨size, root⟩, sig⟩, lines)) =
          Except.ok (sth, rest) := h'
      cases h3 : getBytesOfLen 64 keySignature lines2 with
      | error e => rw [h3] at h''; cases h''
      | ok p3 =>
        obtain ⟨sig, lines3⟩ := p3
        rw [h3] at h''
        have h4 : Except.ok ((⟨⟨size, root⟩, sig⟩ : types.SignedTreeHead), lines3) =
            Except.ok (sth, rest) := h''
        injection h4 with h4
        injection h4 with h5 h6
        obtain ⟨w1, hl1, -⟩ := getInt_inv _ _ _ _ h1
        obtain ⟨w2, hl2, -⟩ := getBytesOfLen_inv _ _ _ _ _ h2
        obtain ⟨w3, hl3, -⟩ := getBytesOfLen_inv _ _ _ _ _ h3
        refine ⟨w1, w2, w3, ?_⟩
        rw [hl1, hl2, hl3, h6]

theorem parseCosigValue_inv (v : Str) (c : types.Cosignature)
    (h : types.parseCosigValue v = some c) :
    ∃ f1 f2 f3, v = f1 ++ ' ' :: (f2 ++ ' ' :: f3) := by
  rw [types.parseCosigValue] at h
  have hj := joinWith_splitOnChar ' ' v
  rcases hsp : splitOnChar ' ' v with _ | ⟨f1, _ | ⟨f2, _ | ⟨f3, _ | ⟨f4, fs⟩⟩⟩⟩
  · rw [hsp] at h; cases h
  · rw [hsp] at h; cases h
  · rw [hsp] at h; cases h
  · refine ⟨f1, f2, f3, ?_⟩
    rw [hsp] at hj
    rw [← hj]
    rfl
  · rw [hsp] at h; cases h

theorem readCosignatures_inv (lines : List Str) :
    ∀ (cs : List types.Cosignature) (rem : List Str),
      types.readCosignatures lines = .ok (cs, rem) →
      ∃ vs : List Str,
        lines = vs.map (fun v => kvLine keyCosignature v) ++ rem ∧
        vs.length = cs.length ∧
        ∀ v ∈ vs, ∃ f1 f2 f3, v = f1 ++ ' ' :: (f2 ++ ' ' :: f3) := by
  induction lines with
  | nil =>
    intro cs rem h
    rw [types.readCosignatures] at h
    injection h with h
    injection h with h1 h2
    refine ⟨[], by rw [← h2]; rfl, by simp [← h1], by simp⟩
  | cons l rest ih =>
    intro cs rem h
    rw [types.readCosignatures] at h
    cases hse : splitFirstEq l with
    | none =>
      rw [hse] at h
      have h' : Except.ok (([] : List types.Cosignature), l :: rest) =
          Except.ok (cs, rem) := h
      injection h' with h'
      injection h' with h1 h2
      refine ⟨[], by rw [← h2]; rfl, by simp [← h1], by simp⟩
    | some kv =>
      obtain ⟨k, v⟩ := kv
      rw [hse] at h
      have hred : (if k = keyCosignature then
          (match types.parseCosigValue v with
           | none => Except.error ProofErr.malformedInput
           | some c =>
             match types.readCosignatures rest with
             | .error e => Except.error e
             | .ok (cs, rem) => Except.ok (c :: cs, rem))
          else Except.ok ([], l :: rest)) = Except.ok (cs, rem) := h
      by_cases hk : k = keyCosignature
      · rw [if_pos hk] at hred
        have h' := hred
        cases hpv : types.parseCosigValue v with
        | none => rw [hpv] at h'; cases h'
        | some c =>
          rw [hpv] at h'
          have h'' : (match types.readCosignatures rest with
              | .error e => Except.error e
              | .ok (cs, rem) => Except.ok (c :: cs, rem)) = Except.ok (cs, rem) := h'
          cases hrc : types.readCosignatures rest with
          | error e => rw [hrc] at h''; cases h''
          | ok p =>
            obtain ⟨cs', rem'⟩ := p
            rw [hrc] at h''
            have h3 : Except.ok (c :: cs', rem') = Except.ok (cs, rem) := h''
            injection h3 with h3
            injection h3 with h4 h5
            obtain ⟨vs', hvs1, hvs2, hvs3⟩ := ih cs' rem' hrc
            obtain ⟨hl, -⟩ := splitFirstEq_inv l k v hse
            refine ⟨v :: vs', ?_, ?_, ?_⟩
            · rw [List.map_cons, List.cons_append, ← h5, ← hvs1, hl, hk]
              rfl
            · rw [← h4, List.length_cons, hvs2]
              rfl
            · intro x hx
              rcases List.mem_cons.mp hx with he | he
              · subst he
                exact parseCosigValue_inv x c hpv
              · exact hvs3 x he
      · rw [if_neg hk] at hred
        injection hred with hred
        injection hred with h1 h2
        refine ⟨[], by rw [← h2]; rfl, by simp [← h1], by simp⟩

/-- C7: the ASCII form of a cosigned tree head is the signed-tree-head
lines followed by one single line per cosignature of the form
`cosignature=<key_hash> <timestamp> <signature>` (a space-separated
triple); parsing accepts this form (round trip), and any text it accepts
decomposes into exactly the signed-tree-head lines followed by
`cosignature=` lines whose values are space-separated triples, one per
parsed cosignature. -/
theorem cosignedTreeHead_ascii_form (cth : types.CosignedTreeHead)
    (h : WfCosignedTreeHead cth) :
    types.CosignedTreeHead.toText cth =
      linesToText (types.SignedTreeHead.toLines cth.signedTreeHead) ++
      linesToText (cth.cosignatures.map types.Cosignature.toLine) ∧
    (∀ c ∈ cth.cosignatures,
      types.Cosignature.toLine c =
        kvLine keyCosignature
          (bytesToHex c.keyHash ++ ' ' ::
            (decToStr c.timestamp ++ ' ' :: bytesToHex c.signature)) ∧
      '\n' ∉ types.Cosignature.toLine c) ∧
    types.CosignedTreeHead.fromText (types.CosignedTreeHead.toText cth) = .ok cth ∧
    (∀ (text : Str) (cth' : types.CosignedTreeHead),
      types.CosignedTreeHead.fromText text = .ok cth' →
      ∃ (v1 v2 v3 : Str) (vs : List Str),
        textToLines text = some
          (kvLine keySize v1 :: kvLine keyRootHash v2 :: kvLine keySignature v3 ::
            vs.map (fun v => kvLine keyCosignature v)) ∧
        vs.length = cth'.cosignatures.length ∧
        ∀ v ∈ vs, ∃ f1 f2 f3, v = f1 ++ ' ' :: (f2 ++ ' ' :: f3)) := by
  refine ⟨?_, ?_, cth_fromText_toText cth h, ?_⟩
  · rw [types.CosignedTreeHead.toText, types.CosignedTreeHead.toLines, linesToText_append]
  · intro c hc
    have hcw := h.2 c hc
    refine ⟨rfl, ?_⟩
    apply nl_not_mem_kvLine _ _ (by decide)
    exact nl_not_mem_triple _ _ _ (nl_not_mem_hex _ hcw.1.2) (nl_not_mem_dec _)
      (nl_not_mem_hex _ hcw.2.2.2)
  · intro text cth' hft
    rw [types.CosignedTreeHead.fromText] at hft
    cases htl : textToLines text with
    | none => rw [htl] at hft; cases hft
    | some lines =>
      rw [htl] at hft
      have h1 : (match types.SignedTreeHead.parse lines with
          | .error e => Except.error e
          | .ok (sth, rest) =>
            match types.readCosignatures rest with
            | .error e => Except.error e
            | .ok (cs, rem) =>
              if rem = [] then Except.ok (⟨sth, cs⟩ : types.CosignedTreeHead)
              else Except.error ProofErr.malformedInput) = Except.ok cth' := hft
      cases hsp : types.SignedTreeHead.parse lines with
      | error e => rw [hsp] at h1; cases h1
      | ok p =>
        obtain ⟨sth, rest⟩ := p
        rw [hsp] at h1
        have h2 : (match types.readCosignatures rest with
            | .error e => Except.error e
            | .ok (cs, rem) =>
              if rem = [] then Except.ok (⟨sth, cs⟩ : types.CosignedTreeHead)
              else Except.error ProofErr.malformedInput) = Except.ok cth' := h1
        cases hrc : types.readCosignatures rest with
        | error e => rw [hrc] at h2; cases h2
        | ok q =>
          obtain ⟨cs, rem⟩ := q
          rw [hrc] at h2
          have h3 : (if rem = [] then Except.ok (⟨sth, cs⟩ : types.CosignedTreeHead)
              else Except.error ProofErr.malformedInput) = Except.ok cth' := h2
          by_cases hrem : rem = []
          · rw [if_pos hrem] at h3
            injection h3 with h3
            obtain ⟨v1, v2, v3, hlines⟩ := signedTreeHead_parse_inv lines sth rest hsp
            obtain ⟨vs, hvs1, hvs2, hvs3⟩ := readCosignatures_inv rest cs rem hrc
            have hgoal1 : (some lines : Option (List Str)) = some
                (kvLine keySize v1 :: kvLine keyRootHash v2 :: kvLine keySignature v3 ::
                  vs.map (fun v => kvLine keyCosignature v)) := by
              rw [hlines, hvs1, hrem, List.append_nil]
            have hgoal2 : vs.length = cth'.cosignatures.length := by
              rw [hvs2, ← h3]
            exact ⟨v1, v2, v3, vs, hgoal1, hgoal2, hvs3⟩
          · rw [if_neg hrem] at h3
            cases h3

/-- Witness for C7: a cosigned tree head with one cosignature survives the
emit-then-parse round trip. -/
theorem cosignedTreeHead_ascii_form_witness :
    types.CosignedTreeHead.fromText (types.CosignedTreeHead.toText
      ⟨⟨⟨2, List.replicate 32 0⟩, List.replicate 64 0⟩,
       [⟨List.replicate 32 0, 5, List.replicate 64 0⟩]⟩) =
      .ok ⟨⟨⟨2, List.replicate 32 0⟩, List.replicate 64 0⟩,
       [⟨List.replicate 32 0, 5, List.replicate 64 0⟩]⟩ :=
  (cosignedTreeHead_ascii_form _
    ⟨⟨by norm_num, by simp [isBytes], by simp [isBytes]⟩,
     by intro c hc
        simp only [List.mem_singleton] at hc
        subst hc
        exact ⟨by simp [isBytes], by norm_num, by simp [isBytes]⟩⟩).2.2.1
